import Mathlib

/-!
Verification of the session/streaming backend in src/api/app.py of newrev.io.
The definitions below are a shallow embedding of that file: the background
turn task `process_chat.run_stream`, the commit reconciliation it performs,
and the request handlers `undo_commit`, `clear_history`, `save_session`,
`load_session`, `initialize_project` and `update_model`.  The agent
(`coder`) is a black box reachable through a run_stream / reflected_message /
aider_edited_files / last_aider_commit_hash contract, so it is modelled as
an oracle (`CoderBehavior`).  Cancellation is cooperative: the flag is read
once before each streamed chunk, so the environment is modelled as the
sequence of values those reads observe (`cancel : Nat → Bool`).
-/

/-- One transcript entry of sessions[session_id].messages: a dict with
role and content fields. -/
structure Msg where
  role : String
  content : String
deriving Repr, DecidableEq

/-- In-memory session state (the sessions[session_id] dict in app.py).
The coder field stands for the live agent handle; it is process-local and
only its identity matters here. -/
structure SessionData where
  coder : Option Nat
  messages : List Msg
  files : List String
  last_aider_commit_hash : Option String
  input_history : List String
  created_at : Nat
deriving Repr, DecidableEq

/-- A streaming event, as put on the per-session message queue by the
turn task (the type field of each queued dict, with its payload). -/
inductive Event where
  | message_chunk (chunk : String)
  | message_complete (content : String)
  | message_cancelled
  | reflection_info (message : String) (reflection_num : Nat)
  | reflection_limit (message : String)
  | refresh_files (mode : String)
  | files_edited (files : List String)
  | commit (hash : String) (message : String) (diff : String)
  | error (message : String)
deriving Repr, DecidableEq

/-- One call to coder.run_stream, abstracted: the chunks the generator
yields, whether it raises after those chunks (with the exception text), and
the value of coder.reflected_message observed once the round is over
(none covers both None and the empty, falsy string). -/
structure Round where
  chunks : List String
  raisesAfter : Option String
  reflected : Option String

/-- The black-box agent state a turn reads: its edit_format (the mode),
the successive rounds its run_stream produces (rounds i is the i-th call
made during the turn), and the attributes read after the loop.
diff_commits is the outcome of computing the diff for a new commit. -/
structure CoderBehavior where
  edit_format : String
  rounds : Nat → Round
  aider_edited_files : List String
  last_aider_commit_hash : Option String
  last_aider_commit_message : String
  diff_commits : Except String String

/-- Outcome of the streaming part of a turn: the loop ran to completion,
the cancellation branch fired, or coder.run_stream raised. -/
inductive TurnOutcome where
  | finished
  | cancelled
  | raised
deriving Repr, DecidableEq

/-- Result of streaming one round: the events published, and either
cancellation or the accumulated full_response; in both cases the next
unused cancellation-check index is returned. -/
inductive StreamResult where
  | cancelled (events : List Event) (nextCheck : Nat)
  | done (events : List Event) (full : String) (nextCheck : Nat)
deriving Repr, DecidableEq

/-- The for-chunk loop of run_stream: before each chunk the cancellation
flag is read (read number checkIdx); on a true read the task publishes
message_cancelled and stops, otherwise the chunk is published and appended
to full_response. -/
def streamChunks (cancel : Nat → Bool) : Nat → List String → StreamResult
  | i, [] => StreamResult.done [] "" i
  | i, c :: rest =>
    if cancel i then
      StreamResult.cancelled [Event.message_cancelled] (i + 1)
    else
      match streamChunks cancel (i + 1) rest with
      | StreamResult.cancelled evs n =>
          StreamResult.cancelled (Event.message_chunk c :: evs) n
      | StreamResult.done evs full n =>
          StreamResult.done (Event.message_chunk c :: evs) (c ++ full) n

/-- Result of the conversation loop of a turn: events published, session
messages after the loop, number of cancellation reads performed, and how
the loop ended. -/
structure LoopResult where
  events : List Event
  messages : List Msg
  checks : Nat
  outcome : TurnOutcome
deriving Repr, DecidableEq

/-- max_reflections in run_stream. -/
def max_reflections : Nat := 3

/-- The reflection_limit event message for max_reflections = 3. -/
def reflectionLimitMsg : String := "Reached maximum reflections (3)"

/-- The code-mode reflection loop of run_stream.  The source tests
num_reflections < max_reflections; here budget = max_reflections minus
numRefl, so that test becomes the pattern match on budget (the top-level
call passes budget = max_reflections and numRefl = 0, and both counters
move together).  Each iteration streams one round, appends the assistant
entry, publishes message_complete, and either follows the reflected
message (publishing reflection_info and appending an info entry) or stops,
publishing reflection_limit when the ceiling was already reached. -/
def codeLoop (rounds : Nat → Round) (cancel : Nat → Bool) :
    Nat → Nat → Nat → List Msg → LoopResult
  | budget, numRefl, checkIdx, msgs =>
    let r := rounds numRefl
    match streamChunks cancel checkIdx r.chunks with
    | StreamResult.cancelled evs n => ⟨evs, msgs, n, TurnOutcome.cancelled⟩
    | StreamResult.done evs full n =>
      match r.raisesAfter with
      | some em => ⟨evs ++ [Event.error em], msgs, n, TurnOutcome.raised⟩
      | none =>
        let msgs1 := msgs ++ [⟨"assistant", full⟩]
        let evs1 := evs ++ [Event.message_complete full]
        match r.reflected with
        | none => ⟨evs1, msgs1, n, TurnOutcome.finished⟩
        | some rm =>
          match budget with
          | b + 1 =>
            let evs2 := evs1 ++ [Event.reflection_info rm (numRefl + 1)]
            let msgs2 := msgs1 ++ [⟨"info", rm⟩]
            let rest := codeLoop rounds cancel b (numRefl + 1) n msgs2
            ⟨evs2 ++ rest.events, rest.messages, rest.checks, rest.outcome⟩
          | 0 =>
            ⟨evs1 ++ [Event.reflection_limit reflectionLimitMsg], msgs1, n,
             TurnOutcome.finished⟩

/-- The single-response branch of run_stream for non-code modes: one
streamed round; a reflected message is surfaced as reflection_info plus a
refresh_files hint and appended as an info entry, never re-submitted. -/
def simpleRun (r : Round) (mode : String) (cancel : Nat → Bool)
    (checkIdx : Nat) (msgs : List Msg) : LoopResult :=
  match streamChunks cancel checkIdx r.chunks with
  | StreamResult.cancelled evs n => ⟨evs, msgs, n, TurnOutcome.cancelled⟩
  | StreamResult.done evs full n =>
    match r.raisesAfter with
    | some em => ⟨evs ++ [Event.error em], msgs, n, TurnOutcome.raised⟩
    | none =>
      let msgs1 := msgs ++ [⟨"assistant", full⟩]
      let evs1 := evs ++ [Event.message_complete full]
      match r.reflected with
      | none => ⟨evs1, msgs1, n, TurnOutcome.finished⟩
      | some rm =>
        ⟨evs1 ++ [Event.reflection_info ("[" ++ mode.toUpper ++ " Mode] " ++ rm) 1,
                  Event.refresh_files mode.toUpper],
         msgs1 ++ [⟨"info", "🤔 AI Note (" ++ mode.toUpper ++ " Mode): " ++ rm⟩],
         n, TurnOutcome.finished⟩

/-- The conversation loop of a turn: mode dependent dispatch of
run_stream (use_reflections is edit_format == code). -/
def turnLoop (cb : CoderBehavior) (cancel : Nat → Bool) (msgs : List Msg) :
    LoopResult :=
  if cb.edit_format == "code" then
    codeLoop cb.rounds cancel max_reflections 0 0 msgs
  else
    simpleRun (cb.rounds 0) cb.edit_format cancel 0 msgs

/-- The files_edited events published after the loop: one event when
coder.aider_edited_files is non-empty, none otherwise. -/
def filesEditedEvents (cb : CoderBehavior) : List Event :=
  if cb.aider_edited_files.isEmpty then []
  else [Event.files_edited cb.aider_edited_files]

/-- Repository reconciliation after the loop: compare the cached
last_aider_commit_hash of the session against the live one of the coder;
when they differ and the live value is truthy, compute the diff and
publish a commit event, advancing the cached hash; a failing diff is
caught and skips both.  Returns the events and the new cached hash. -/
def commitCheck (cb : CoderBehavior) (sessLast : Option String) :
    List Event × Option String :=
  match cb.last_aider_commit_hash with
  | some h =>
    if sessLast ≠ some h ∧ h ≠ "" then
      match cb.diff_commits with
      | Except.ok d => ([Event.commit h cb.last_aider_commit_message d], some h)
      | Except.error _ => ([], sessLast)
    else ([], sessLast)
  | none => ([], sessLast)

/-- Result of one whole turn task: the events published to the queue, the
session transcript and cached commit hash afterwards, whether the session
was saved to disk, the value written to the cancellation flag (some false
exactly when the cancellation branch cleared it), the number of
cancellation reads performed, and the outcome. -/
structure RunResult where
  events : List Event
  messages : List Msg
  last_aider_commit_hash : Option String
  saved : Bool
  flagAfter : Option Bool
  checksPerformed : Nat
  outcome : TurnOutcome
deriving Repr, DecidableEq

/-- One invocation of the background task run_stream of process_chat, for
a session present in the sessions table: the conversation loop, then (only
when the loop ran to completion) the files_edited event, the commit
reconciliation and the final save_session. -/
def process_chat_run (cb : CoderBehavior) (cancel : Nat → Bool)
    (sess : SessionData) : RunResult :=
  let lr := turnLoop cb cancel sess.messages
  match lr.outcome with
  | TurnOutcome.cancelled =>
    ⟨lr.events, lr.messages, sess.last_aider_commit_hash, false, some false,
     lr.checks, TurnOutcome.cancelled⟩
  | TurnOutcome.raised =>
    ⟨lr.events, lr.messages, sess.last_aider_commit_hash, false, none,
     lr.checks, TurnOutcome.raised⟩
  | TurnOutcome.finished =>
    let cc := commitCheck cb sess.last_aider_commit_hash
    ⟨lr.events ++ filesEditedEvents cb ++ cc.1, lr.messages, cc.2, true, none,
     lr.checks, TurnOutcome.finished⟩

/-- Outcome of a request handler: success, a 400 client fault, a 404, or a
500 server fault, each with the message of its JSON body. -/
inductive ApiResult where
  | ok (message : String)
  | clientError (message : String)
  | notFound (message : String)
  | serverError (message : String)
deriving Repr, DecidableEq

/-- The undo_commit handler, after session resolution: requires a truthy
commit_hash, rejects with a 400 unless the supplied hash equals both the
cached last_aider_commit_hash of the session and the live one of the
coder, and otherwise appends the captured output as an info entry (plus
the optional reply as an assistant entry) and resets the cached hash to
None.  undoLines and undoReply stand for the output of cmd_undo. -/
def undo_commit (sess : SessionData) (coderLast : Option String)
    (undoLines : String) (undoReply : Option String) (commit_hash : String) :
    ApiResult × SessionData :=
  if commit_hash = "" then
    (ApiResult.clientError "Session ID and commit hash are required", sess)
  else if sess.last_aider_commit_hash ≠ some commit_hash ∨
          coderLast ≠ some commit_hash then
    (ApiResult.clientError ("Commit " ++ commit_hash ++ " is not the latest commit"),
     sess)
  else
    let m1 := sess.messages ++ [⟨"info", undoLines⟩]
    let m2 := match undoReply with
      | some rep => m1 ++ [⟨"assistant", rep⟩]
      | none => m1
    (ApiResult.ok undoLines,
     { sess with messages := m2, last_aider_commit_hash := none })

/-- The info notice clear_history appends. -/
def clearNotice : String :=
  "Cleared chat history. Now the LLM can\x27t see anything before this line."

/-- The clear_history handler on the session state: keep only the first
two transcript entries and append the info notice. -/
def clear_history (sess : SessionData) : SessionData :=
  { sess with messages := sess.messages.take 2 ++ [⟨"info", clearNotice⟩] }

/-- The on-disk document save_session writes for one session: exactly the
five serialisable fields; the coder handle is not part of it. -/
structure SavedSession where
  messages : List Msg
  files : List String
  last_aider_commit_hash : Option String
  input_history : List String
  created_at : Nat
deriving Repr, DecidableEq

/-- save_session: write the serialisable part of the session to the file
keyed by session_id (the sessions directory modelled as an association
list; writing replaces any previous file of that id). -/
def save_session (disk : List (String × SavedSession)) (session_id : String)
    (sess : SessionData) : List (String × SavedSession) :=
  (session_id,
    ⟨sess.messages, sess.files, sess.last_aider_commit_hash,
     sess.input_history, sess.created_at⟩) ::
  disk.filter (fun p => p.1 != session_id)

/-- load_session: read the file keyed by session_id, if present. -/
def load_session (disk : List (String × SavedSession)) (session_id : String) :
    Option SavedSession :=
  (disk.find? (fun p => p.1 == session_id)).map Prod.snd

/-- Environment facts the initialize_project handler observes: whether the
requested path exists, whether it is a git repository, and the outcome of
initialize_coder inside the try block. -/
structure ProjectEnv where
  pathExists : Bool
  isGitRepo : Bool
  coderInit : Except String Unit

/-- The initialize_project handler, tracking the process working directory
(second component of the result).  After validation it does
os.chdir(project_path); the try/finally restores original_cwd on both the
success path and the initialize_coder failure path. -/
def init_project (cwd : String) (session_id project_path : String)
    (env : ProjectEnv) : ApiResult × String :=
  if session_id = "" ∨ project_path = "" then
    (ApiResult.clientError "Session ID and project path are required", cwd)
  else if ¬ env.pathExists then
    (ApiResult.clientError ("Project path does not exist: " ++ project_path), cwd)
  else if ¬ env.isGitRepo then
    (ApiResult.clientError ("Not a git repository: " ++ project_path), cwd)
  else
    let original_cwd := cwd
    let _cwd_in_try := project_path
    match env.coderInit with
    | Except.error e =>
        (ApiResult.serverError ("Failed to initialize project: " ++ e), original_cwd)
    | Except.ok _ =>
        (ApiResult.ok ("Project initialized at " ++ project_path), original_cwd)

/-- The update_model handler, tracking the process working directory.  It
reads project_path from the session (falling back to the current working
directory), changes directory only when that differs from original_cwd,
and the inner try/finally restores original_cwd in that case on both the
success and the failure path of initialize_coder. -/
def update_model (cwd : String) (session_id model : String)
    (sessionFound : Bool) (project_path : Option String)
    (coderInit : Except String Unit) : ApiResult × String :=
  if session_id = "" ∨ model = "" then
    (ApiResult.clientError "Session ID and model are required", cwd)
  else if ¬ sessionFound then
    (ApiResult.notFound "Session not found", cwd)
  else
    let pp := project_path.getD cwd
    let original_cwd := cwd
    let cwd_in_try := if pp ≠ original_cwd then pp else cwd
    match coderInit with
    | Except.error e =>
        (ApiResult.serverError ("Failed to switch model: " ++ e),
         if pp ≠ original_cwd then original_cwd else cwd_in_try)
    | Except.ok _ =>
        (ApiResult.ok ("Successfully switched to model: " ++ model),
         if pp ≠ original_cwd then original_cwd else cwd_in_try)

/-- Recognise message_chunk events. -/
def isChunkEv : Event → Bool
  | Event.message_chunk _ => true
  | _ => false

/-- Recognise message_complete events. -/
def isCompleteEv : Event → Bool
  | Event.message_complete _ => true
  | _ => false

/-- Recognise message_cancelled events. -/
def isCancelledEv : Event → Bool
  | Event.message_cancelled => true
  | _ => false

/-- Recognise reflection_info events. -/
def isReflInfoEv : Event → Bool
  | Event.reflection_info _ _ => true
  | _ => false

/-- Recognise reflection_limit events. -/
def isReflLimitEv : Event → Bool
  | Event.reflection_limit _ => true
  | _ => false

/-- Recognise refresh_files events. -/
def isRefreshEv : Event → Bool
  | Event.refresh_files _ => true
  | _ => false

/-- Recognise files_edited events. -/
def isFilesEditedEv : Event → Bool
  | Event.files_edited _ => true
  | _ => false

/-- Recognise commit events. -/
def isCommitEv : Event → Bool
  | Event.commit _ _ _ => true
  | _ => false

/-- Recognise error events. -/
def isErrorEv : Event → Bool
  | Event.error _ => true
  | _ => false

/-- Number of events satisfying p in a list. -/
def countP (p : Event → Bool) (l : List Event) : Nat := (l.filter p).length

/-- Events the claim C1 allows before the terminal event. -/
def isPreEvent (e : Event) : Bool :=
  isChunkEv e || isReflInfoEv e || isReflLimitEv e

/-- Terminal events in the sense of claim C1. -/
def isTerminalEvent (e : Event) : Bool :=
  isCompleteEv e || isCancelledEv e || isErrorEv e

/-- Events the claim C1 allows after the terminal event. -/
def isPostEvent (e : Event) : Bool :=
  isFilesEditedEv e || isCommitEv e

/-- The event-sequence shape asserted by claim C1, as stated: exactly one
terminal event (the events before the first terminal event are all
chunk / reflection_info / reflection_limit, the events after it are all
non-terminal), followed by at most one files_edited and at most one
commit event and nothing else. -/
def claimC1Shape (evs : List Event) : Bool :=
  let preT := evs.takeWhile (fun e => ! isTerminalEvent e)
  match evs.drop preT.length with
  | [] => false
  | _t :: post =>
    preT.all isPreEvent && post.all isPostEvent &&
    Nat.ble (countP isFilesEditedEv post) 1 && Nat.ble (countP isCommitEv post) 1

/-- Lists consisting only of message_chunk events. -/
def ChunksOnly (l : List Event) : Prop := ∀ e ∈ l, ∃ c, e = Event.message_chunk c

/-- What can directly follow the final message_complete of a turn, before
the post events: nothing, a reflection_limit (code mode), or a
reflection_info plus refresh_files pair (non-code modes). -/
inductive ReflTail : List Event → Prop where
  | nil : ReflTail []
  | limit (m : String) : ReflTail [Event.reflection_limit m]
  | info (m : String) (n : Nat) (md : String) :
      ReflTail [Event.reflection_info m n, Event.refresh_files md]

/-- The post part of a normally completed turn: at most one files_edited
followed by at most one commit. -/
inductive PostTail : List Event → Prop where
  | nil : PostTail []
  | fe (fs : List String) : PostTail [Event.files_edited fs]
  | cm (h m d : String) : PostTail [Event.commit h m d]
  | both (fs : List String) (h m d : String) :
      PostTail [Event.files_edited fs, Event.commit h m d]

/-- The actual shape of the event sequence of one turn: one or more
response rounds, each some chunks followed by one message_complete, the
rounds separated by reflection_info events; the turn ends either with a
message_cancelled (nothing after it), with a single error event (nothing
after it), or normally with a ReflTail and then a PostTail after the
final complete. -/
inductive TurnShape : List Event → Prop where
  | cancelledEnd (pre : List Event) : ChunksOnly pre →
      TurnShape (pre ++ [Event.message_cancelled])
  | errorEnd (pre : List Event) (m : String) : ChunksOnly pre →
      TurnShape (pre ++ [Event.error m])
  | finalRound (pre : List Event) (c : String) (rt pt : List Event) :
      ChunksOnly pre → ReflTail rt → PostTail pt →
      TurnShape (pre ++ Event.message_complete c :: (rt ++ pt))
  | moreRounds (pre : List Event) (c m : String) (n : Nat) (rest : List Event) :
      ChunksOnly pre → TurnShape rest →
      TurnShape (pre ++ Event.message_complete c :: Event.reflection_info m n :: rest)

/-- Concatenation of the chunks of a round, as full_response accumulates it. -/
def concatChunks : List String → String
  | [] => ""
  | c :: rest => c ++ concatChunks rest

/-- Concrete agent for the C1 counterexample: code mode, the first round
ends with a reflected message, the second does not. -/
def c1cb : CoderBehavior :=
  ⟨"code",
   fun i => if i = 0 then ⟨[], none, some "run the tests"⟩ else ⟨[], none, none⟩,
   [], none, "", Except.ok ""⟩

/-- Concrete session used by several concrete evaluations: empty transcript,
no cached commit. -/
def emptySession : SessionData := ⟨none, [], [], none, [], 0⟩

/-- Concrete agent for the C2 witness: code mode, one chunk. -/
def c2cb : CoderBehavior :=
  ⟨"code", fun _ => ⟨["hi"], none, none⟩, [], none, "", Except.ok ""⟩

/-- Concrete agent for the C3 witness: code mode, every round yields one
chunk and ends with a reflected message. -/
def c3cb : CoderBehavior :=
  ⟨"code", fun _ => ⟨["a"], none, some "next"⟩, [], none, "", Except.ok ""⟩

/-- Concrete agent for the C4 witness: ask mode, one chunk, a reflected
message that must be surfaced but not re-submitted. -/
def c4cb : CoderBehavior :=
  ⟨"ask", fun _ => ⟨["x"], none, some "note"⟩, [], none, "", Except.ok ""⟩

/-- Concrete session for the C5 theorems: cached commit hash h1. -/
def c5sess : SessionData := ⟨none, [], [], some "h1", [], 0⟩

/-- Concrete agent for the C7 witness: code mode, one plain round, a new
live commit abc with a diff that computes successfully. -/
def c7cb : CoderBehavior :=
  ⟨"code", fun _ => ⟨["ok"], none, none⟩, ["f.py"], some "abc", "msg",
   Except.ok "DIFF"⟩

/-- Concrete session for the C8 witness: three transcript entries. -/
def c8sess : SessionData :=
  ⟨none, [⟨"info", "hello"⟩, ⟨"assistant", "hi"⟩, ⟨"user", "q"⟩], [], none, [], 0⟩

/-- Concrete agent for the C8 witness turn. -/
def c8cb : CoderBehavior :=
  ⟨"code", fun _ => ⟨["r"], none, none⟩, [], none, "", Except.ok ""⟩

/-- Concrete agent for the C9 theorems: code mode, the first round
completes and reflects, cancellation is observed during the second round. -/
def c9cb : CoderBehavior :=
  ⟨"code",
   fun i => if i = 0 then ⟨["done"], none, some "continue"⟩ else ⟨["x"], none, none⟩,
   ["f.py"], some "abc", "msg", Except.ok "DIFF"⟩

/-- Cancellation-flag reads for the C9 theorems: false at the first read,
true from the second read on (the flag is set during the first round). -/
def c9cancel : Nat → Bool := fun k => Nat.ble 1 k

theorem countP_append (p : Event → Bool) (a b : List Event) :
    countP p (a ++ b) = countP p a + countP p b := by
  simp [countP, List.filter_append]

theorem chunksOnly_count (p : Event → Bool)
    (hp : ∀ c, p (Event.message_chunk c) = false) :
    ∀ l, ChunksOnly l → countP p l = 0 := by
  intro l hl
  induction l with
  | nil => rfl
  | cons e t ih =>
    obtain ⟨c, rfl⟩ := hl e (by simp)
    have ht : ChunksOnly t := fun x hx => hl x (by simp [hx])
    simpa [countP, List.filter_cons, hp c] using ih ht

theorem chunksOnly_append (a b : List Event) (ha : ChunksOnly a) (hb : ChunksOnly b) :
    ChunksOnly (a ++ b) := by
  intro e he
  rcases List.mem_append.mp he with h | h
  · exact ha e h
  · exact hb e h

theorem streamChunks_cancelled_shape (cancel : Nat → Bool) :
    ∀ (cs : List String) (i : Nat) (evs : List Event) (n : Nat),
      streamChunks cancel i cs = StreamResult.cancelled evs n →
      ∃ pre, evs = pre ++ [Event.message_cancelled] ∧ ChunksOnly pre := by
  intro cs
  induction cs with
  | nil =>
    intro i evs n h
    simp [streamChunks] at h
  | cons c rest ih =>
    intro i evs n h
    unfold streamChunks at h
    by_cases hc : cancel i
    · simp only [hc, if_true] at h
      injection h with h1 h2
      refine ⟨[], by simp [h1.symm], ?_⟩
      intro e he; simp at he
    · simp only [hc, if_false] at h
      cases hrec : streamChunks cancel (i + 1) rest with
      | cancelled evs2 n2 =>
        rw [hrec] at h
        injection h with h1 h2
        obtain ⟨pre, hpre, hco⟩ := ih (i + 1) evs2 n2 hrec
        refine ⟨Event.message_chunk c :: pre, ?_, ?_⟩
        · simp [h1.symm, hpre]
        · intro e he
          rcases List.mem_cons.mp he with h | h
          · exact ⟨c, h⟩
          · exact hco e h
      | done evs2 full2 n2 =>
        rw [hrec] at h
        cases h

theorem streamChunks_done_chunksOnly (cancel : Nat → Bool) :
    ∀ (cs : List String) (i : Nat) (evs : List Event) (full : String) (n : Nat),
      streamChunks cancel i cs = StreamResult.done evs full n →
      ChunksOnly evs := by
  intro cs
  induction cs with
  | nil =>
    intro i evs full n h
    unfold streamChunks at h
    injection h with h1 h2 h3
    subst h1
    intro e he; simp at he
  | cons c rest ih =>
    intro i evs full n h
    unfold streamChunks at h
    by_cases hc : cancel i
    · simp only [hc, if_true] at h
      cases h
    · simp only [hc, if_false] at h
      cases hrec : streamChunks cancel (i + 1) rest with
      | cancelled evs2 n2 =>
        rw [hrec] at h; cases h
      | done evs2 full2 n2 =>
        rw [hrec] at h
        injection h with h1 h2 h3
        subst h1
        intro e he
        rcases List.mem_cons.mp he with h | h
        · exact ⟨c, h⟩
        · exact ih (i + 1) evs2 full2 n2 hrec e h

theorem streamChunks_done_checks (cancel : Nat → Bool) :
    ∀ (cs : List String) (i : Nat) (evs : List Event) (full : String) (n : Nat),
      streamChunks cancel i cs = StreamResult.done evs full n →
      i ≤ n ∧ ∀ k, i ≤ k → k < n → cancel k = false := by
  intro cs
  induction cs with
  | nil =>
    intro i evs full n h
    unfold streamChunks at h
    injection h with h1 h2 h3
    subst h3
    exact ⟨Nat.le_refl i, fun k hk1 hk2 => absurd hk2 (Nat.not_lt.mpr hk1)⟩
  | cons c rest ih =>
    intro i evs full n h
    unfold streamChunks at h
    by_cases hc : cancel i
    · simp only [hc, if_true] at h; cases h
    · simp only [hc, if_false] at h
      cases hrec : streamChunks cancel (i + 1) rest with
      | cancelled evs2 n2 => rw [hrec] at h; cases h
      | done evs2 full2 n2 =>
        rw [hrec] at h
        injection h with h1 h2 h3
        subst h3
        obtain ⟨hle, hall⟩ := ih (i + 1) evs2 full2 n2 hrec
        refine ⟨Nat.le_trans (Nat.le_succ i) hle, ?_⟩
        intro k hk1 hk2
        rcases Nat.eq_or_lt_of_le hk1 with h | h
        · subst h; exact Bool.of_not_eq_true hc
        · exact hall k h hk2

theorem streamChunks_nocancel (cancel : Nat → Bool)
    (hc : ∀ k, cancel k = false) :
    ∀ (cs : List String) (i : Nat),
      streamChunks cancel i cs =
        StreamResult.done (cs.map Event.message_chunk) (concatChunks cs)
          (i + cs.length) := by
  intro cs
  induction cs with
  | nil => intro i; simp [streamChunks, concatChunks]
  | cons c rest ih =>
    intro i
    unfold streamChunks
    simp only [hc i, if_false, ih (i + 1), List.map_cons, concatChunks,
      List.length_cons]
    have : i + 1 + rest.length = i + (rest.length + 1) := by omega
    simp [this]

theorem codeLoop_append_only (rounds : Nat → Round) (cancel : Nat → Bool) :
    ∀ (budget numRefl checkIdx : Nat) (msgs : List Msg),
      ∃ t, (codeLoop rounds cancel budget numRefl checkIdx msgs).messages =
        msgs ++ t := by
  intro budget
  induction budget with
  | zero =>
    intro numRefl checkIdx msgs
    unfold codeLoop
    cases hs : streamChunks cancel checkIdx (rounds numRefl).chunks with
    | cancelled evs n => exact ⟨[], by simp [hs]⟩
    | done evs full n =>
      cases hra : (rounds numRefl).raisesAfter with
      | some em => exact ⟨[], by simp [hs, hra]⟩
      | none =>
        cases hrf : (rounds numRefl).reflected with
        | none => exact ⟨[⟨"assistant", full⟩], by simp [hs, hra, hrf]⟩
        | some rm => exact ⟨[⟨"assistant", full⟩], by simp [hs, hra, hrf]⟩
  | succ b ih =>
    intro numRefl checkIdx msgs
    unfold codeLoop
    cases hs : streamChunks cancel checkIdx (rounds numRefl).chunks with
    | cancelled evs n => exact ⟨[], by simp [hs]⟩
    | done evs full n =>
      cases hra : (rounds numRefl).raisesAfter with
      | some em => exact ⟨[], by simp [hs, hra]⟩
      | none =>
        cases hrf : (rounds numRefl).reflected with
        | none => exact ⟨[⟨"assistant", full⟩], by simp [hs, hra, hrf]⟩
        | some rm =>
          obtain ⟨t, ht⟩ :=
            ih (numRefl + 1) n
              (msgs ++ [⟨"assistant", full⟩, ⟨"info", rm⟩])
          exact ⟨[⟨"assistant", full⟩, ⟨"info", rm⟩] ++ t,
            by simp [hs, hra, hrf, ht]⟩

theorem chunksOnly_map (cs : List String) :
    ChunksOnly (cs.map Event.message_chunk) := by
  intro e he
  obtain ⟨c, _, rfl⟩ := List.mem_map.mp he
  exact ⟨c, rfl⟩

theorem codeLoop_checks (rounds : Nat → Round) (cancel : Nat → Bool) :
    ∀ (budget numRefl checkIdx : Nat) (msgs : List Msg),
      (codeLoop rounds cancel budget numRefl checkIdx msgs).outcome ≠
        TurnOutcome.cancelled →
      checkIdx ≤ (codeLoop rounds cancel budget numRefl checkIdx msgs).checks ∧
      ∀ k, checkIdx ≤ k →
        k < (codeLoop rounds cancel budget numRefl checkIdx msgs).checks →
        cancel k = false := by
  intro budget
  induction budget with
  | zero =>
    intro numRefl checkIdx msgs hout
    unfold codeLoop at hout ⊢
    cases hs : streamChunks cancel checkIdx (rounds numRefl).chunks with
    | cancelled evs n => simp [hs] at hout
    | done evs full n =>
      have hchk := streamChunks_done_checks cancel (rounds numRefl).chunks
        checkIdx evs full n hs
      cases hra : (rounds numRefl).raisesAfter with
      | some em => simpa [hs, hra] using hchk
      | none =>
        cases hrf : (rounds numRefl).reflected with
        | none => simpa [hs, hra, hrf] using hchk
        | some rm => simpa [hs, hra, hrf] using hchk
  | succ b ih =>
    intro numRefl checkIdx msgs hout
    unfold codeLoop at hout ⊢
    cases hs : streamChunks cancel checkIdx (rounds numRefl).chunks with
    | cancelled evs n => simp [hs] at hout
    | done evs full n =>
      have hchk := streamChunks_done_checks cancel (rounds numRefl).chunks
        checkIdx evs full n hs
      cases hra : (rounds numRefl).raisesAfter with
      | some em => simpa [hs, hra] using hchk
      | none =>
        cases hrf : (rounds numRefl).reflected with
        | none => simpa [hs, hra, hrf] using hchk
        | some rm =>
          simp only [hs, hra, hrf] at hout ⊢
          obtain ⟨hle1, hall1⟩ := hchk
          obtain ⟨hle2, hall2⟩ :=
            ih (numRefl + 1) n
              (msgs ++ [⟨"assistant", full⟩] ++ [⟨"info", rm⟩]) hout
          refine ⟨Nat.le_trans hle1 hle2, ?_⟩
          intro k hk1 hk2
          by_cases hkn : k < n
          · exact hall1 k hk1 hkn
          · exact hall2 k (Nat.le_of_not_lt hkn) hk2

theorem codeLoop_cancelled_shape (rounds : Nat → Round) (cancel : Nat → Bool) :
    ∀ (budget numRefl checkIdx : Nat) (msgs : List Msg),
      (codeLoop rounds cancel budget numRefl checkIdx msgs).outcome =
        TurnOutcome.cancelled →
      ∃ pre, (codeLoop rounds cancel budget numRefl checkIdx msgs).events =
          pre ++ [Event.message_cancelled] ∧ countP isCancelledEv pre = 0 := by
  intro budget
  induction budget with
  | zero =>
    intro numRefl checkIdx msgs hout
    unfold codeLoop at hout ⊢
    cases hs : streamChunks cancel checkIdx (rounds numRefl).chunks with
    | cancelled evs n =>
      obtain ⟨pre, hpre, hco⟩ :=
        streamChunks_cancelled_shape cancel (rounds numRefl).chunks checkIdx evs n hs
      refine ⟨pre, by simp [hs, hpre], ?_⟩
      exact chunksOnly_count isCancelledEv (fun c => rfl) pre hco
    | done evs full n =>
      cases hra : (rounds numRefl).raisesAfter with
      | some em => simp [hs, hra] at hout
      | none =>
        cases hrf : (rounds numRefl).reflected with
        | none => simp [hs, hra, hrf] at hout
        | some rm => simp [hs, hra, hrf] at hout
  | succ b ih =>
    intro numRefl checkIdx msgs hout
    unfold codeLoop at hout ⊢
    cases hs : streamChunks cancel checkIdx (rounds numRefl).chunks with
    | cancelled evs n =>
      obtain ⟨pre, hpre, hco⟩ :=
        streamChunks_cancelled_shape cancel (rounds numRefl).chunks checkIdx evs n hs
      refine ⟨pre, by simp [hs, hpre], ?_⟩
      exact chunksOnly_count isCancelledEv (fun c => rfl) pre hco
    | done evs full n =>
      cases hra : (rounds numRefl).raisesAfter with
      | some em => simp [hs, hra] at hout
      | none =>
        cases hrf : (rounds numRefl).reflected with
        | none => simp [hs, hra, hrf] at hout
        | some rm =>
          simp only [hs, hra, hrf, List.append_assoc, List.singleton_append,
            List.cons_append, List.nil_append] at hout ⊢
          obtain ⟨pre, hpre, hcnt⟩ :=
            ih (numRefl + 1) n
              (msgs ++ [⟨"assistant", full⟩, ⟨"info", rm⟩]) hout
          have hcoevs := streamChunks_done_chunksOnly cancel (rounds numRefl).chunks
            checkIdx evs full n hs
          have h1 : countP isCancelledEv evs = 0 :=
            chunksOnly_count isCancelledEv (fun c => rfl) evs hcoevs
          refine ⟨evs ++ Event.message_complete full ::
            Event.reflection_info rm (numRefl + 1) :: pre, by simp [hpre], ?_⟩
          have hsplit : countP isCancelledEv (evs ++ Event.message_complete full ::
              Event.reflection_info rm (numRefl + 1) :: pre) =
              countP isCancelledEv evs + countP isCancelledEv pre := by
            simp [countP, List.filter_append, List.filter_cons, isCancelledEv]
          rw [hsplit, h1, hcnt]

theorem codeLoop_count_zero (rounds : Nat → Round) (cancel : Nat → Bool)
    (p : Event → Bool)
    (hchunk : ∀ c, p (Event.message_chunk c) = false)
    (hcomp : ∀ c, p (Event.message_complete c) = false)
    (hcanc : p Event.message_cancelled = false)
    (hinfo : ∀ m n, p (Event.reflection_info m n) = false)
    (hlim : ∀ m, p (Event.reflection_limit m) = false)
    (herr : ∀ m, p (Event.error m) = false) :
    ∀ (budget numRefl checkIdx : Nat) (msgs : List Msg),
      countP p (codeLoop rounds cancel budget numRefl checkIdx msgs).events = 0 := by
  intro budget
  induction budget with
  | zero =>
    intro numRefl checkIdx msgs
    unfold codeLoop
    cases hs : streamChunks cancel checkIdx (rounds numRefl).chunks with
    | cancelled evs n =>
      obtain ⟨pre, hpre, hco⟩ :=
        streamChunks_cancelled_shape cancel (rounds numRefl).chunks checkIdx evs n hs
      have h1 := chunksOnly_count p hchunk pre hco
      simp [hs, hpre, countP, List.filter_append, List.filter_cons, hcanc]
      simpa [countP] using h1
    | done evs full n =>
      have hco := streamChunks_done_chunksOnly cancel (rounds numRefl).chunks
        checkIdx evs full n hs
      have h1 := chunksOnly_count p hchunk evs hco
      cases hra : (rounds numRefl).raisesAfter with
      | some em =>
        simp [hs, hra, countP, List.filter_append, List.filter_cons, herr]
        simpa [countP] using h1
      | none =>
        cases hrf : (rounds numRefl).reflected with
        | none =>
          simp [hs, hra, hrf, countP, List.filter_append, List.filter_cons, hcomp]
          simpa [countP] using h1
        | some rm =>
          simp [hs, hra, hrf, countP, List.filter_append, List.filter_cons,
            hcomp, hlim]
          simpa [countP] using h1
  | succ b ih =>
    intro numRefl checkIdx msgs
    unfold codeLoop
    cases hs : streamChunks cancel checkIdx (rounds numRefl).chunks with
    | cancelled evs n =>
      obtain ⟨pre, hpre, hco⟩ :=
        streamChunks_cancelled_shape cancel (rounds numRefl).chunks checkIdx evs n hs
      have h1 := chunksOnly_count p hchunk pre hco
      simp [hs, hpre, countP, List.filter_append, List.filter_cons, hcanc]
      simpa [countP] using h1
    | done evs full n =>
      have hco := streamChunks_done_chunksOnly cancel (rounds numRefl).chunks
        checkIdx evs full n hs
      have h1 := chunksOnly_count p hchunk evs hco
      cases hra : (rounds numRefl).raisesAfter with
      | some em =>
        simp [hs, hra, countP, List.filter_append, List.filter_cons, herr]
        simpa [countP] using h1
      | none =>
        cases hrf : (rounds numRefl).reflected with
        | none =>
          simp [hs, hra, hrf, countP, List.filter_append, List.filter_cons, hcomp]
          simpa [countP] using h1
        | some rm =>
          have h2 := ih (numRefl + 1) n (msgs ++ [⟨"assistant", full⟩, ⟨"info", rm⟩])
          simp [hs, hra, hrf, countP, List.filter_append, List.filter_cons,
            hcomp, hinfo]
          constructor
          · simpa [countP] using h1
          · simpa [countP] using h2

theorem codeLoop_reflinfo_le (rounds : Nat → Round) (cancel : Nat → Bool) :
    ∀ (budget numRefl checkIdx : Nat) (msgs : List Msg),
      countP isReflInfoEv
        (codeLoop rounds cancel budget numRefl checkIdx msgs).events ≤ budget := by
  intro budget
  induction budget with
  | zero =>
    intro numRefl checkIdx msgs
    unfold codeLoop
    cases hs : streamChunks cancel checkIdx (rounds numRefl).chunks with
    | cancelled evs n =>
      obtain ⟨pre, hpre, hco⟩ :=
        streamChunks_cancelled_shape cancel (rounds numRefl).chunks checkIdx evs n hs
      have h1 := chunksOnly_count isReflInfoEv (fun c => rfl) pre hco
      simp [hs, hpre, countP, List.filter_append, List.filter_cons, isReflInfoEv]
      simpa [countP] using h1
    | done evs full n =>
      have hco := streamChunks_done_chunksOnly cancel (rounds numRefl).chunks
        checkIdx evs full n hs
      have h1 := chunksOnly_count isReflInfoEv (fun c => rfl) evs hco
      cases hra : (rounds numRefl).raisesAfter with
      | some em =>
        simp [hs, hra, countP, List.filter_append, List.filter_cons, isReflInfoEv]
        simpa [countP] using h1
      | none =>
        cases hrf : (rounds numRefl).reflected with
        | none =>
          simp [hs, hra, hrf, countP, List.filter_append, List.filter_cons,
            isReflInfoEv]
          simpa [countP] using h1
        | some rm =>
          simp [hs, hra, hrf, countP, List.filter_append, List.filter_cons,
            isReflInfoEv]
          simpa [countP] using h1
  | succ b ih =>
    intro numRefl checkIdx msgs
    unfold codeLoop
    cases hs : streamChunks cancel checkIdx (rounds numRefl).chunks with
    | cancelled evs n =>
      obtain ⟨pre, hpre, hco⟩ :=
        streamChunks_cancelled_shape cancel (rounds numRefl).chunks checkIdx evs n hs
      have hz : List.filter isReflInfoEv pre = [] :=
        List.filter_eq_nil_iff.mpr (fun a ha => by
          obtain ⟨c, rfl⟩ := hco a ha; simp [isReflInfoEv])
      simp [hs, hpre, countP, List.filter_append, List.filter_cons, isReflInfoEv, hz]
    | done evs full n =>
      have hco := streamChunks_done_chunksOnly cancel (rounds numRefl).chunks
        checkIdx evs full n hs
      have hz : List.filter isReflInfoEv evs = [] :=
        List.filter_eq_nil_iff.mpr (fun a ha => by
          obtain ⟨c, rfl⟩ := hco a ha; simp [isReflInfoEv])
      cases hra : (rounds numRefl).raisesAfter with
      | some em =>
        simp [hs, hra, countP, List.filter_append, List.filter_cons, isReflInfoEv, hz]
      | none =>
        cases hrf : (rounds numRefl).reflected with
        | none =>
          simp [hs, hra, hrf, countP, List.filter_append, List.filter_cons,
            isReflInfoEv, hz]
        | some rm =>
          have h2 := ih (numRefl + 1) n (msgs ++ [⟨"assistant", full⟩, ⟨"info", rm⟩])
          simp [countP] at h2
          simp [hs, hra, hrf, countP, List.filter_append, List.filter_cons,
            isReflInfoEv, hz]
          omega

theorem codeLoop_complete_le (rounds : Nat → Round) (cancel : Nat → Bool) :
    ∀ (budget numRefl checkIdx : Nat) (msgs : List Msg),
      countP isCompleteEv
        (codeLoop rounds cancel budget numRefl checkIdx msgs).events ≤
        budget + 1 := by
  intro budget
  induction budget with
  | zero =>
    intro numRefl checkIdx msgs
    unfold codeLoop
    cases hs : streamChunks cancel checkIdx (rounds numRefl).chunks with
    | cancelled evs n =>
      obtain ⟨pre, hpre, hco⟩ :=
        streamChunks_cancelled_shape cancel (rounds numRefl).chunks checkIdx evs n hs
      have hz : List.filter isCompleteEv pre = [] :=
        List.filter_eq_nil_iff.mpr (fun a ha => by
          obtain ⟨c, rfl⟩ := hco a ha; simp [isCompleteEv])
      simp [hs, hpre, countP, List.filter_append, List.filter_cons, isCompleteEv, hz]
    | done evs full n =>
      have hco := streamChunks_done_chunksOnly cancel (rounds numRefl).chunks
        checkIdx evs full n hs
      have hz : List.filter isCompleteEv evs = [] :=
        List.filter_eq_nil_iff.mpr (fun a ha => by
          obtain ⟨c, rfl⟩ := hco a ha; simp [isCompleteEv])
      cases hra : (rounds numRefl).raisesAfter with
      | some em =>
        simp [hs, hra, countP, List.filter_append, List.filter_cons, isCompleteEv, hz]
      | none =>
        cases hrf : (rounds numRefl).reflected with
        | none =>
          simp [hs, hra, hrf, countP, List.filter_append, List.filter_cons,
            isCompleteEv, hz]
        | some rm =>
          simp [hs, hra, hrf, countP, List.filter_append, List.filter_cons,
            isCompleteEv, hz]
  | succ b ih =>
    intro numRefl checkIdx msgs
    unfold codeLoop
    cases hs : streamChunks cancel checkIdx (rounds numRefl).chunks with
    | cancelled evs n =>
      obtain ⟨pre, hpre, hco⟩ :=
        streamChunks_cancelled_shape cancel (rounds numRefl).chunks checkIdx evs n hs
      have hz : List.filter isCompleteEv pre = [] :=
        List.filter_eq_nil_iff.mpr (fun a ha => by
          obtain ⟨c, rfl⟩ := hco a ha; simp [isCompleteEv])
      simp [hs, hpre, countP, List.filter_append, List.filter_cons, isCompleteEv, hz]
    | done evs full n =>
      have hco := streamChunks_done_chunksOnly cancel (rounds numRefl).chunks
        checkIdx evs full n hs
      have hz : List.filter isCompleteEv evs = [] :=
        List.filter_eq_nil_iff.mpr (fun a ha => by
          obtain ⟨c, rfl⟩ := hco a ha; simp [isCompleteEv])
      cases hra : (rounds numRefl).raisesAfter with
      | some em =>
        simp [hs, hra, countP, List.filter_append, List.filter_cons, isCompleteEv, hz]
      | none =>
        cases hrf : (rounds numRefl).reflected with
        | none =>
          simp [hs, hra, hrf, countP, List.filter_append, List.filter_cons,
            isCompleteEv, hz]
        | some rm =>
          have h2 := ih (numRefl + 1) n (msgs ++ [⟨"assistant", full⟩, ⟨"info", rm⟩])
          simp [countP] at h2
          simp [hs, hra, hrf, countP, List.filter_append, List.filter_cons,
            isCompleteEv, hz]
          omega

theorem codeLoop_finished_no_error (rounds : Nat → Round) (cancel : Nat → Bool) :
    ∀ (budget numRefl checkIdx : Nat) (msgs : List Msg),
      (codeLoop rounds cancel budget numRefl checkIdx msgs).outcome =
        TurnOutcome.finished →
      countP isErrorEv
        (codeLoop rounds cancel budget numRefl checkIdx msgs).events = 0 := by
  intro budget
  induction budget with
  | zero =>
    intro numRefl checkIdx msgs hout
    unfold codeLoop at hout ⊢
    cases hs : streamChunks cancel checkIdx (rounds numRefl).chunks with
    | cancelled evs n => simp [hs] at hout
    | done evs full n =>
      have hco := streamChunks_done_chunksOnly cancel (rounds numRefl).chunks
        checkIdx evs full n hs
      have hz : List.filter isErrorEv evs = [] :=
        List.filter_eq_nil_iff.mpr (fun a ha => by
          obtain ⟨c, rfl⟩ := hco a ha; simp [isErrorEv])
      cases hra : (rounds numRefl).raisesAfter with
      | some em => simp [hs, hra] at hout
      | none =>
        cases hrf : (rounds numRefl).reflected with
        | none =>
          simp [hs, hra, hrf, countP, List.filter_append, List.filter_cons,
            isErrorEv, hz]
        | some rm =>
          simp [hs, hra, hrf, countP, List.filter_append, List.filter_cons,
            isErrorEv, hz]
  | succ b ih =>
    intro numRefl checkIdx msgs hout
    unfold codeLoop at hout ⊢
    cases hs : streamChunks cancel checkIdx (rounds numRefl).chunks with
    | cancelled evs n => simp [hs] at hout
    | done evs full n =>
      have hco := streamChunks_done_chunksOnly cancel (rounds numRefl).chunks
        checkIdx evs full n hs
      have hz : List.filter isErrorEv evs = [] :=
        List.filter_eq_nil_iff.mpr (fun a ha => by
          obtain ⟨c, rfl⟩ := hco a ha; simp [isErrorEv])
      cases hra : (rounds numRefl).raisesAfter with
      | some em => simp [hs, hra] at hout
      | none =>
        cases hrf : (rounds numRefl).reflected with
        | none =>
          simp [hs, hra, hrf, countP, List.filter_append, List.filter_cons,
            isErrorEv, hz]
        | some rm =>
          simp only [hs, hra, hrf] at hout
          have h2 := ih (numRefl + 1) n
            (msgs ++ [⟨"assistant", full⟩] ++ [⟨"info", rm⟩]) hout
          simp [countP] at h2
          simp [hs, hra, hrf, countP, List.filter_append, List.filter_cons,
            isErrorEv, hz]
          exact h2

theorem codeLoop_shape (rounds : Nat → Round) (cancel : Nat → Bool) :
    ∀ (budget numRefl checkIdx : Nat) (msgs : List Msg),
      ((codeLoop rounds cancel budget numRefl checkIdx msgs).outcome =
          TurnOutcome.finished →
        ∀ pt, PostTail pt →
          TurnShape
            ((codeLoop rounds cancel budget numRefl checkIdx msgs).events ++ pt)) ∧
      ((codeLoop rounds cancel budget numRefl checkIdx msgs).outcome ≠
          TurnOutcome.finished →
        TurnShape (codeLoop rounds cancel budget numRefl checkIdx msgs).events) := by
  intro budget
  induction budget with
  | zero =>
    intro numRefl checkIdx msgs
    unfold codeLoop
    cases hs : streamChunks cancel checkIdx (rounds numRefl).chunks with
    | cancelled evs n =>
      obtain ⟨pre, hpre, hco⟩ :=
        streamChunks_cancelled_shape cancel (rounds numRefl).chunks checkIdx evs n hs
      simp only [hs]
      constructor
      · intro hf; exact absurd hf (by decide)
      · intro _
        rw [hpre]
        exact TurnShape.cancelledEnd pre hco
    | done evs full n =>
      have hco := streamChunks_done_chunksOnly cancel (rounds numRefl).chunks
        checkIdx evs full n hs
      cases hra : (rounds numRefl).raisesAfter with
      | some em =>
        simp only [hs, hra]
        constructor
        · intro hf; exact absurd hf (by decide)
        · intro _
          exact TurnShape.errorEnd evs em hco
      | none =>
        cases hrf : (rounds numRefl).reflected with
        | none =>
          simp only [hs, hra, hrf]
          constructor
          · intro _ pt hpt
            simpa using TurnShape.finalRound evs full [] pt hco ReflTail.nil hpt
          · intro h; exact absurd rfl h
        | some rm =>
          simp only [hs, hra, hrf]
          constructor
          · intro _ pt hpt
            simpa using TurnShape.finalRound evs full
              [Event.reflection_limit reflectionLimitMsg] pt hco
              (ReflTail.limit reflectionLimitMsg) hpt
          · intro h; exact absurd rfl h
  | succ b ih =>
    intro numRefl checkIdx msgs
    unfold codeLoop
    cases hs : streamChunks cancel checkIdx (rounds numRefl).chunks with
    | cancelled evs n =>
      obtain ⟨pre, hpre, hco⟩ :=
        streamChunks_cancelled_shape cancel (rounds numRefl).chunks checkIdx evs n hs
      simp only [hs]
      constructor
      · intro hf; exact absurd hf (by decide)
      · intro _
        rw [hpre]
        exact TurnShape.cancelledEnd pre hco
    | done evs full n =>
      have hco := streamChunks_done_chunksOnly cancel (rounds numRefl).chunks
        checkIdx evs full n hs
      cases hra : (rounds numRefl).raisesAfter with
      | some em =>
        simp only [hs, hra]
        constructor
        · intro hf; exact absurd hf (by decide)
        · intro _
          exact TurnShape.errorEnd evs em hco
      | none =>
        cases hrf : (rounds numRefl).reflected with
        | none =>
          simp only [hs, hra, hrf]
          constructor
          · intro _ pt hpt
            simpa using TurnShape.finalRound evs full [] pt hco ReflTail.nil hpt
          · intro h; exact absurd rfl h
        | some rm =>
          simp only [hs, hra, hrf, List.append_assoc, List.singleton_append,
            List.cons_append, List.nil_append]
          have ihr := ih (numRefl + 1) n
            (msgs ++ [⟨"assistant", full⟩, ⟨"info", rm⟩])
          constructor
          · intro hf pt hpt
            have hsh := ihr.1 hf pt hpt
            simpa using TurnShape.moreRounds evs full rm (numRefl + 1)
              ((codeLoop rounds cancel b (numRefl + 1) n
                (msgs ++ [⟨"assistant", full⟩, ⟨"info", rm⟩])).events ++ pt)
              hco hsh
          · intro hnf
            have hsh := ihr.2 hnf
            simpa using TurnShape.moreRounds evs full rm (numRefl + 1)
              ((codeLoop rounds cancel b (numRefl + 1) n
                (msgs ++ [⟨"assistant", full⟩, ⟨"info", rm⟩])).events)
              hco hsh

theorem codeLoop_all_reflect (rounds : Nat → Round) (cancel : Nat → Bool)
    (hcancel : ∀ k, cancel k = false)
    (hnr : ∀ j, (rounds j).raisesAfter = none)
    (hrefl : ∀ j, (rounds j).reflected.isSome) :
    ∀ (budget numRefl checkIdx : Nat) (msgs : List Msg),
      (codeLoop rounds cancel budget numRefl checkIdx msgs).outcome =
        TurnOutcome.finished ∧
      countP isReflInfoEv
        (codeLoop rounds cancel budget numRefl checkIdx msgs).events = budget ∧
      countP isCompleteEv
        (codeLoop rounds cancel budget numRefl checkIdx msgs).events =
        budget + 1 ∧
      Event.reflection_limit reflectionLimitMsg ∈
        (codeLoop rounds cancel budget numRefl checkIdx msgs).events := by
  intro budget
  induction budget with
  | zero =>
    intro numRefl checkIdx msgs
    obtain ⟨rm, hrm⟩ := Option.isSome_iff_exists.mp (hrefl numRefl)
    unfold codeLoop
    simp only [streamChunks_nocancel cancel hcancel, hnr numRefl, hrm]
    have hz1 : List.filter isReflInfoEv
        ((rounds numRefl).chunks.map Event.message_chunk) = [] :=
      List.filter_eq_nil_iff.mpr (fun a ha => by
        obtain ⟨c, rfl⟩ := chunksOnly_map (rounds numRefl).chunks a ha
        simp [isReflInfoEv])
    have hz2 : List.filter isCompleteEv
        ((rounds numRefl).chunks.map Event.message_chunk) = [] :=
      List.filter_eq_nil_iff.mpr (fun a ha => by
        obtain ⟨c, rfl⟩ := chunksOnly_map (rounds numRefl).chunks a ha
        simp [isCompleteEv])
    refine ⟨by trivial, ?_, ?_, ?_⟩
    · simp [countP, List.filter_append, List.filter_cons, isReflInfoEv, hz1]
    · simp [countP, List.filter_append, List.filter_cons, isCompleteEv, hz2]
    · simp
  | succ b ih =>
    intro numRefl checkIdx msgs
    obtain ⟨rm, hrm⟩ := Option.isSome_iff_exists.mp (hrefl numRefl)
    unfold codeLoop
    simp only [streamChunks_nocancel cancel hcancel, hnr numRefl, hrm,
      List.append_assoc, List.singleton_append, List.cons_append, List.nil_append]
    have hz1 : List.filter isReflInfoEv
        ((rounds numRefl).chunks.map Event.message_chunk) = [] :=
      List.filter_eq_nil_iff.mpr (fun a ha => by
        obtain ⟨c, rfl⟩ := chunksOnly_map (rounds numRefl).chunks a ha
        simp [isReflInfoEv])
    have hz2 : List.filter isCompleteEv
        ((rounds numRefl).chunks.map Event.message_chunk) = [] :=
      List.filter_eq_nil_iff.mpr (fun a ha => by
        obtain ⟨c, rfl⟩ := chunksOnly_map (rounds numRefl).chunks a ha
        simp [isCompleteEv])
    obtain ⟨hout, hcnt1, hcnt2, hmem⟩ := ih (numRefl + 1)
      (checkIdx + (rounds numRefl).chunks.length)
      (msgs ++ [⟨"assistant", concatChunks (rounds numRefl).chunks⟩, ⟨"info", rm⟩])
    refine ⟨hout, ?_, ?_, ?_⟩
    · simp [countP, List.filter_append, List.filter_cons, isReflInfoEv, hz1]
        at hcnt1 ⊢
      omega
    · simp [countP, List.filter_append, List.filter_cons, isCompleteEv, hz2]
        at hcnt2 ⊢
      omega
    · simp [hmem]

theorem simpleRun_append_only (r : Round) (mode : String) (cancel : Nat → Bool)
    (checkIdx : Nat) (msgs : List Msg) :
    ∃ t, (simpleRun r mode cancel checkIdx msgs).messages = msgs ++ t := by
  unfold simpleRun
  cases hs : streamChunks cancel checkIdx r.chunks with
  | cancelled evs n => exact ⟨[], by simp⟩
  | done evs full n =>
    cases hra : r.raisesAfter with
    | some em => exact ⟨[], by simp⟩
    | none =>
      cases hrf : r.reflected with
      | none => exact ⟨[⟨"assistant", full⟩], by simp⟩
      | some rm =>
        exact ⟨[⟨"assistant", full⟩,
          ⟨"info", "🤔 AI Note (" ++ mode.toUpper ++ " Mode): " ++ rm⟩], by simp⟩

theorem simpleRun_checks (r : Round) (mode : String) (cancel : Nat → Bool)
    (checkIdx : Nat) (msgs : List Msg)
    (hout : (simpleRun r mode cancel checkIdx msgs).outcome ≠
      TurnOutcome.cancelled) :
    checkIdx ≤ (simpleRun r mode cancel checkIdx msgs).checks ∧
    ∀ k, checkIdx ≤ k → k < (simpleRun r mode cancel checkIdx msgs).checks →
      cancel k = false := by
  unfold simpleRun at hout ⊢
  cases hs : streamChunks cancel checkIdx r.chunks with
  | cancelled evs n => simp [hs] at hout
  | done evs full n =>
    have hchk := streamChunks_done_checks cancel r.chunks checkIdx evs full n hs
    cases hra : r.raisesAfter with
    | some em => simpa [hs, hra] using hchk
    | none =>
      cases hrf : r.reflected with
      | none => simpa [hs, hra, hrf] using hchk
      | some rm => simpa [hs, hra, hrf] using hchk

theorem simpleRun_cancelled_shape (r : Round) (mode : String) (cancel : Nat → Bool)
    (checkIdx : Nat) (msgs : List Msg)
    (hout : (simpleRun r mode cancel checkIdx msgs).outcome =
      TurnOutcome.cancelled) :
    ∃ pre, (simpleRun r mode cancel checkIdx msgs).events =
      pre ++ [Event.message_cancelled] ∧ countP isCancelledEv pre = 0 := by
  unfold simpleRun at hout ⊢
  cases hs : streamChunks cancel checkIdx r.chunks with
  | cancelled evs n =>
    obtain ⟨pre, hpre, hco⟩ :=
      streamChunks_cancelled_shape cancel r.chunks checkIdx evs n hs
    exact ⟨pre, by simp [hs, hpre],
      chunksOnly_count isCancelledEv (fun c => rfl) pre hco⟩
  | done evs full n =>
    cases hra : r.raisesAfter with
    | some em => simp [hs, hra] at hout
    | none =>
      cases hrf : r.reflected with
      | none => simp [hs, hra, hrf] at hout
      | some rm => simp [hs, hra, hrf] at hout

theorem simpleRun_count_zero (r : Round) (mode : String) (cancel : Nat → Bool)
    (checkIdx : Nat) (msgs : List Msg) (p : Event → Bool)
    (hchunk : ∀ c, p (Event.message_chunk c) = false)
    (hcomp : ∀ c, p (Event.message_complete c) = false)
    (hcanc : p Event.message_cancelled = false)
    (hinfo : ∀ m n, p (Event.reflection_info m n) = false)
    (hrefresh : ∀ m, p (Event.refresh_files m) = false)
    (herr : ∀ m, p (Event.error m) = false) :
    countP p (simpleRun r mode cancel checkIdx msgs).events = 0 := by
  unfold simpleRun
  cases hs : streamChunks cancel checkIdx r.chunks with
  | cancelled evs n =>
    obtain ⟨pre, hpre, hco⟩ :=
      streamChunks_cancelled_shape cancel r.chunks checkIdx evs n hs
    have hz : List.filter p pre = [] :=
      List.filter_eq_nil_iff.mpr (fun a ha => by
        obtain ⟨c, rfl⟩ := hco a ha; simp [hchunk])
    simp [hs, hpre, countP, List.filter_append, List.filter_cons, hcanc, hz]
  | done evs full n =>
    have hco := streamChunks_done_chunksOnly cancel r.chunks checkIdx evs full n hs
    have hz : List.filter p evs = [] :=
      List.filter_eq_nil_iff.mpr (fun a ha => by
        obtain ⟨c, rfl⟩ := hco a ha; simp [hchunk])
    cases hra : r.raisesAfter with
    | some em =>
      simp [hs, hra, countP, List.filter_append, List.filter_cons, herr, hz]
    | none =>
      cases hrf : r.reflected with
      | none =>
        simp [hs, hra, hrf, countP, List.filter_append, List.filter_cons, hcomp, hz]
      | some rm =>
        simp [hs, hra, hrf, countP, List.filter_append, List.filter_cons,
          hcomp, hinfo, hrefresh, hz]

theorem simpleRun_complete_count (r : Round) (mode : String) (cancel : Nat → Bool)
    (checkIdx : Nat) (msgs : List Msg) :
    countP isCompleteEv (simpleRun r mode cancel checkIdx msgs).events ≤ 1 ∧
    ((simpleRun r mode cancel checkIdx msgs).outcome = TurnOutcome.finished →
      countP isCompleteEv (simpleRun r mode cancel checkIdx msgs).events = 1) := by
  unfold simpleRun
  cases hs : streamChunks cancel checkIdx r.chunks with
  | cancelled evs n =>
    obtain ⟨pre, hpre, hco⟩ :=
      streamChunks_cancelled_shape cancel r.chunks checkIdx evs n hs
    have hz : List.filter isCompleteEv pre = [] :=
      List.filter_eq_nil_iff.mpr (fun a ha => by
        obtain ⟨c, rfl⟩ := hco a ha; simp [isCompleteEv])
    constructor
    · simp [hs, hpre, countP, List.filter_append, List.filter_cons, isCompleteEv, hz]
    · intro hf; simp [hs] at hf
  | done evs full n =>
    have hco := streamChunks_done_chunksOnly cancel r.chunks checkIdx evs full n hs
    have hz : List.filter isCompleteEv evs = [] :=
      List.filter_eq_nil_iff.mpr (fun a ha => by
        obtain ⟨c, rfl⟩ := hco a ha; simp [isCompleteEv])
    cases hra : r.raisesAfter with
    | some em =>
      constructor
      · simp [hs, hra, countP, List.filter_append, List.filter_cons,
          isCompleteEv, hz]
      · intro hf; simp [hs, hra] at hf
    | none =>
      cases hrf : r.reflected with
      | none =>
        constructor
        · simp [hs, hra, hrf, countP, List.filter_append, List.filter_cons,
            isCompleteEv, hz]
        · intro _
          simp [hs, hra, hrf, countP, List.filter_append, List.filter_cons,
            isCompleteEv, hz]
      | some rm =>
        constructor
        · simp [hs, hra, hrf, countP, List.filter_append, List.filter_cons,
            isCompleteEv, hz]
        · intro _
          simp [hs, hra, hrf, countP, List.filter_append, List.filter_cons,
            isCompleteEv, hz]

theorem simpleRun_finished_no_error (r : Round) (mode : String)
    (cancel : Nat → Bool) (checkIdx : Nat) (msgs : List Msg)
    (hout : (simpleRun r mode cancel checkIdx msgs).outcome =
      TurnOutcome.finished) :
    countP isErrorEv (simpleRun r mode cancel checkIdx msgs).events = 0 := by
  unfold simpleRun at hout ⊢
  cases hs : streamChunks cancel checkIdx r.chunks with
  | cancelled evs n => simp [hs] at hout
  | done evs full n =>
    have hco := streamChunks_done_chunksOnly cancel r.chunks checkIdx evs full n hs
    have hz : List.filter isErrorEv evs = [] :=
      List.filter_eq_nil_iff.mpr (fun a ha => by
        obtain ⟨c, rfl⟩ := hco a ha; simp [isErrorEv])
    cases hra : r.raisesAfter with
    | some em => simp [hs, hra] at hout
    | none =>
      cases hrf : r.reflected with
      | none =>
        simp [hs, hra, hrf, countP, List.filter_append, List.filter_cons,
          isErrorEv, hz]
      | some rm =>
        simp [hs, hra, hrf, countP, List.filter_append, List.filter_cons,
          isErrorEv, hz]

theorem simpleRun_shape (r : Round) (mode : String) (cancel : Nat → Bool)
    (checkIdx : Nat) (msgs : List Msg) :
    ((simpleRun r mode cancel checkIdx msgs).outcome = TurnOutcome.finished →
      ∀ pt, PostTail pt →
        TurnShape ((simpleRun r mode cancel checkIdx msgs).events ++ pt)) ∧
    ((simpleRun r mode cancel checkIdx msgs).outcome ≠ TurnOutcome.finished →
      TurnShape (simpleRun r mode cancel checkIdx msgs).events) := by
  unfold simpleRun
  cases hs : streamChunks cancel checkIdx r.chunks with
  | cancelled evs n =>
    obtain ⟨pre, hpre, hco⟩ :=
      streamChunks_cancelled_shape cancel r.chunks checkIdx evs n hs
    simp only [hs]
    constructor
    · intro hf; exact absurd hf (by decide)
    · intro _
      rw [hpre]
      exact TurnShape.cancelledEnd pre hco
  | done evs full n =>
    have hco := streamChunks_done_chunksOnly cancel r.chunks checkIdx evs full n hs
    cases hra : r.raisesAfter with
    | some em =>
      simp only [hs, hra]
      constructor
      · intro hf; exact absurd hf (by decide)
      · intro _
        exact TurnShape.errorEnd evs em hco
    | none =>
      cases hrf : r.reflected with
      | none =>
        simp only [hs, hra, hrf]
        constructor
        · intro _ pt hpt
          simpa using TurnShape.finalRound evs full [] pt hco ReflTail.nil hpt
        · intro h; exact absurd rfl h
      | some rm =>
        simp only [hs, hra, hrf]
        constructor
        · intro _ pt hpt
          simpa using TurnShape.finalRound evs full
            [Event.reflection_info ("[" ++ mode.toUpper ++ " Mode] " ++ rm) 1,
             Event.refresh_files mode.toUpper] pt hco
            (ReflTail.info ("[" ++ mode.toUpper ++ " Mode] " ++ rm) 1 mode.toUpper)
            hpt
        · intro h; exact absurd rfl h

theorem simpleRun_reflected (r : Round) (mode : String) (cancel : Nat → Bool)
    (checkIdx : Nat) (msgs : List Msg) (m : String)
    (hrm : r.reflected = some m)
    (hout : (simpleRun r mode cancel checkIdx msgs).outcome =
      TurnOutcome.finished) :
    Event.reflection_info ("[" ++ mode.toUpper ++ " Mode] " ++ m) 1 ∈
      (simpleRun r mode cancel checkIdx msgs).events ∧
    Event.refresh_files mode.toUpper ∈
      (simpleRun r mode cancel checkIdx msgs).events ∧
    (⟨"info", "🤔 AI Note (" ++ mode.toUpper ++ " Mode): " ++ m⟩ : Msg) ∈
      (simpleRun r mode cancel checkIdx msgs).messages := by
  unfold simpleRun at hout ⊢
  cases hs : streamChunks cancel checkIdx r.chunks with
  | cancelled evs n => simp [hs] at hout
  | done evs full n =>
    cases hra : r.raisesAfter with
    | some em => simp [hs, hra] at hout
    | none =>
      simp [hs, hra, hrm]

theorem postTail_post (cb : CoderBehavior) (sl : Option String) :
    PostTail (filesEditedEvents cb ++ (commitCheck cb sl).1) := by
  have hcc : (commitCheck cb sl).1 = [] ∨
      ∃ h d, (commitCheck cb sl).1 =
        [Event.commit h cb.last_aider_commit_message d] := by
    unfold commitCheck
    cases hl : cb.last_aider_commit_hash with
    | none => exact Or.inl rfl
    | some h =>
      dsimp only
      by_cases hcond : sl ≠ some h ∧ h ≠ ""
      · rw [if_pos hcond]
        cases hd : cb.diff_commits with
        | ok d => exact Or.inr ⟨h, d, rfl⟩
        | error e => exact Or.inl rfl
      · rw [if_neg hcond]
        exact Or.inl rfl
  unfold filesEditedEvents
  by_cases hfe : cb.aider_edited_files.isEmpty
  · rcases hcc with hc | ⟨h, d, hc⟩
    · rw [hc]
      simp only [hfe, if_true, List.append_nil]
      exact PostTail.nil
    · rw [hc]
      simp only [hfe, if_true, List.nil_append]
      exact PostTail.cm h cb.last_aider_commit_message d
  · rcases hcc with hc | ⟨h, d, hc⟩
    · rw [hc]
      simp only [hfe, if_false, List.append_nil]
      exact PostTail.fe cb.aider_edited_files
    · rw [hc]
      simp only [hfe, if_false]
      exact PostTail.both cb.aider_edited_files h cb.last_aider_commit_message d

theorem turnLoop_shape (cb : CoderBehavior) (cancel : Nat → Bool) (msgs : List Msg) :
    (((turnLoop cb cancel msgs).outcome = TurnOutcome.finished →
      ∀ pt, PostTail pt → TurnShape ((turnLoop cb cancel msgs).events ++ pt)) ∧
     ((turnLoop cb cancel msgs).outcome ≠ TurnOutcome.finished →
      TurnShape (turnLoop cb cancel msgs).events)) := by
  unfold turnLoop
  by_cases h : cb.edit_format == "code"
  · simp only [h, if_true]
    exact codeLoop_shape cb.rounds cancel max_reflections 0 0 msgs
  · simp only [h, if_false]
    exact simpleRun_shape (cb.rounds 0) cb.edit_format cancel 0 msgs

theorem turnLoop_append_only (cb : CoderBehavior) (cancel : Nat → Bool)
    (msgs : List Msg) :
    ∃ t, (turnLoop cb cancel msgs).messages = msgs ++ t := by
  unfold turnLoop
  by_cases h : cb.edit_format == "code"
  · simp only [h, if_true]
    exact codeLoop_append_only cb.rounds cancel max_reflections 0 0 msgs
  · simp only [h, if_false]
    exact simpleRun_append_only (cb.rounds 0) cb.edit_format cancel 0 msgs

theorem turnLoop_checks (cb : CoderBehavior) (cancel : Nat → Bool)
    (msgs : List Msg)
    (hout : (turnLoop cb cancel msgs).outcome ≠ TurnOutcome.cancelled) :
    ∀ k, k < (turnLoop cb cancel msgs).checks → cancel k = false := by
  unfold turnLoop at hout ⊢
  by_cases h : cb.edit_format == "code"
  · simp only [h, if_true] at hout ⊢
    intro k hk
    exact (codeLoop_checks cb.rounds cancel max_reflections 0 0 msgs hout).2 k
      (Nat.zero_le k) hk
  · simp only [h, if_false] at hout ⊢
    intro k hk
    exact (simpleRun_checks (cb.rounds 0) cb.edit_format cancel 0 msgs hout).2 k
      (Nat.zero_le k) hk

theorem turnLoop_cancelled_shape (cb : CoderBehavior) (cancel : Nat → Bool)
    (msgs : List Msg)
    (hout : (turnLoop cb cancel msgs).outcome = TurnOutcome.cancelled) :
    ∃ pre, (turnLoop cb cancel msgs).events = pre ++ [Event.message_cancelled] ∧
      countP isCancelledEv pre = 0 := by
  unfold turnLoop at hout ⊢
  by_cases h : cb.edit_format == "code"
  · simp only [h, if_true] at hout ⊢
    exact codeLoop_cancelled_shape cb.rounds cancel max_reflections 0 0 msgs hout
  · simp only [h, if_false] at hout ⊢
    exact simpleRun_cancelled_shape (cb.rounds 0) cb.edit_format cancel 0 msgs hout

theorem turnLoop_finished_no_error (cb : CoderBehavior) (cancel : Nat → Bool)
    (msgs : List Msg)
    (hout : (turnLoop cb cancel msgs).outcome = TurnOutcome.finished) :
    countP isErrorEv (turnLoop cb cancel msgs).events = 0 := by
  unfold turnLoop at hout ⊢
  by_cases h : cb.edit_format == "code"
  · simp only [h, if_true] at hout ⊢
    exact codeLoop_finished_no_error cb.rounds cancel max_reflections 0 0 msgs hout
  · simp only [h, if_false] at hout ⊢
    exact simpleRun_finished_no_error (cb.rounds 0) cb.edit_format cancel 0 msgs hout

theorem turnLoop_count_zero (cb : CoderBehavior) (cancel : Nat → Bool)
    (msgs : List Msg) (p : Event → Bool)
    (hchunk : ∀ c, p (Event.message_chunk c) = false)
    (hcomp : ∀ c, p (Event.message_complete c) = false)
    (hcanc : p Event.message_cancelled = false)
    (hinfo : ∀ m n, p (Event.reflection_info m n) = false)
    (hlim : ∀ m, p (Event.reflection_limit m) = false)
    (hrefresh : ∀ m, p (Event.refresh_files m) = false)
    (herr : ∀ m, p (Event.error m) = false) :
    countP p (turnLoop cb cancel msgs).events = 0 := by
  unfold turnLoop
  by_cases h : cb.edit_format == "code"
  · simp only [h, if_true]
    exact codeLoop_count_zero cb.rounds cancel p hchunk hcomp hcanc hinfo hlim
      herr max_reflections 0 0 msgs
  · simp only [h, if_false]
    exact simpleRun_count_zero (cb.rounds 0) cb.edit_format cancel 0 msgs p
      hchunk hcomp hcanc hinfo hrefresh herr

theorem process_outcome_eq (cb : CoderBehavior) (cancel : Nat → Bool)
    (sess : SessionData) :
    (process_chat_run cb cancel sess).outcome =
      (turnLoop cb cancel sess.messages).outcome := by
  unfold process_chat_run
  cases ho : (turnLoop cb cancel sess.messages).outcome <;> simp [ho]

theorem process_checks_eq (cb : CoderBehavior) (cancel : Nat → Bool)
    (sess : SessionData) :
    (process_chat_run cb cancel sess).checksPerformed =
      (turnLoop cb cancel sess.messages).checks := by
  unfold process_chat_run
  cases ho : (turnLoop cb cancel sess.messages).outcome <;> simp [ho]

theorem process_cancelled (cb : CoderBehavior) (cancel : Nat → Bool)
    (sess : SessionData)
    (ho : (turnLoop cb cancel sess.messages).outcome = TurnOutcome.cancelled) :
    (process_chat_run cb cancel sess).events =
      (turnLoop cb cancel sess.messages).events ∧
    (process_chat_run cb cancel sess).flagAfter = some false ∧
    (process_chat_run cb cancel sess).saved = false ∧
    (process_chat_run cb cancel sess).messages =
      (turnLoop cb cancel sess.messages).messages ∧
    (process_chat_run cb cancel sess).last_aider_commit_hash =
      sess.last_aider_commit_hash := by
  unfold process_chat_run
  simp [ho]

theorem process_finished (cb : CoderBehavior) (cancel : Nat → Bool)
    (sess : SessionData)
    (ho : (turnLoop cb cancel sess.messages).outcome = TurnOutcome.finished) :
    (process_chat_run cb cancel sess).events =
      (turnLoop cb cancel sess.messages).events ++
        (filesEditedEvents cb ++
          (commitCheck cb sess.last_aider_commit_hash).1) ∧
    (process_chat_run cb cancel sess).last_aider_commit_hash =
      (commitCheck cb sess.last_aider_commit_hash).2 ∧
    (process_chat_run cb cancel sess).saved = true ∧
    (process_chat_run cb cancel sess).messages =
      (turnLoop cb cancel sess.messages).messages := by
  unfold process_chat_run
  simp [ho]

/-- C1 (amended): the event sequence of one turn is one or more rounds,
each some message_chunk events followed by one message_complete, separated
by reflection_info events; after the final complete come optionally a
reflection_limit or (non-code modes) a reflection_info plus refresh_files,
then at most one files_edited and at most one commit; a cancellation or an
exception instead ends the whole sequence with a single message_cancelled
or a single error event, with nothing after it. -/
theorem C1_amended_turn_shape (cb : CoderBehavior) (cancel : Nat → Bool)
    (sess : SessionData) :
    TurnShape (process_chat_run cb cancel sess).events := by
  unfold process_chat_run
  cases ho : (turnLoop cb cancel sess.messages).outcome with
  | cancelled =>
    simp only [ho]
    exact (turnLoop_shape cb cancel sess.messages).2 (by simp [ho])
  | raised =>
    simp only [ho]
    exact (turnLoop_shape cb cancel sess.messages).2 (by simp [ho])
  | finished =>
    simp only [ho, List.append_assoc]
    exact (turnLoop_shape cb cancel sess.messages).1 ho _
      (postTail_post cb sess.last_aider_commit_hash)

/-- C1, as stated, fails on the code: in code mode a turn with one
reflection publishes two message_complete events, and the reflection_info
event follows the first complete instead of preceding the terminal event.
Concrete run: first round reflects, second round does not. -/
theorem C1_counterexample :
    claimC1Shape
      (process_chat_run c1cb (fun _ => false) emptySession).events = false := by
  decide

/-- C2: if the cancellation flag reads true at one of the checks the turn
performs, the turn publishes exactly one message_cancelled event, it is
the last event published (so no message_chunk or message_complete after
it), and the cancellation flag has just been cleared to false. -/
theorem C2_cancellation (cb : CoderBehavior) (cancel : Nat → Bool)
    (sess : SessionData)
    (hset : ∃ k, k < (process_chat_run cb cancel sess).checksPerformed ∧
      cancel k = true) :
    countP isCancelledEv (process_chat_run cb cancel sess).events = 1 ∧
    (∃ pre, (process_chat_run cb cancel sess).events =
      pre ++ [Event.message_cancelled] ∧ countP isCancelledEv pre = 0) ∧
    (process_chat_run cb cancel sess).flagAfter = some false := by
  have hcp := process_checks_eq cb cancel sess
  obtain ⟨k, hk, hck⟩ := hset
  have ho : (turnLoop cb cancel sess.messages).outcome = TurnOutcome.cancelled := by
    by_contra hne
    have hfalse := turnLoop_checks cb cancel sess.messages hne k
      (by rw [hcp] at hk; exact hk)
    rw [hfalse] at hck
    cases hck
  obtain ⟨pre, hpre, hcnt⟩ := turnLoop_cancelled_shape cb cancel sess.messages ho
  obtain ⟨hev, hfl, _, _, _⟩ := process_cancelled cb cancel sess ho
  refine ⟨?_, ⟨pre, by rw [hev, hpre], hcnt⟩, hfl⟩
  rw [hev, hpre, countP_append, hcnt]
  rfl

/-- Witness for C2 at a concrete input: code mode, one chunk, the flag
already set at the first read. -/
theorem C2_cancellation_witness :
    (∃ k, k < (process_chat_run c2cb (fun _ => true) emptySession).checksPerformed ∧
      (fun _ : Nat => true) k = true) ∧
    countP isCancelledEv
      (process_chat_run c2cb (fun _ => true) emptySession).events = 1 ∧
    (∃ pre, (process_chat_run c2cb (fun _ => true) emptySession).events =
      pre ++ [Event.message_cancelled] ∧ countP isCancelledEv pre = 0) ∧
    (process_chat_run c2cb (fun _ => true) emptySession).flagAfter = some false :=
  ⟨⟨0, by decide, rfl⟩,
   C2_cancellation c2cb (fun _ => true) emptySession ⟨0, by decide, rfl⟩⟩

/-- C9, as stated, fails on the code: when cancellation hits a later
reflection round, the assistant and info entries appended by the rounds
that completed earlier in the same turn stay in the transcript.  Concrete
run: the first round completes and reflects, the flag reads true during
the second round, and the transcript has grown although the turn was
cancelled. -/
theorem C9_counterexample :
    (process_chat_run c9cb c9cancel emptySession).outcome =
      TurnOutcome.cancelled ∧
    (process_chat_run c9cb c9cancel emptySession).messages ≠
      emptySession.messages := by
  decide

theorem process_raised (cb : CoderBehavior) (cancel : Nat → Bool)
    (sess : SessionData)
    (ho : (turnLoop cb cancel sess.messages).outcome = TurnOutcome.raised) :
    (process_chat_run cb cancel sess).events =
      (turnLoop cb cancel sess.messages).events ∧
    (process_chat_run cb cancel sess).saved = false ∧
    (process_chat_run cb cancel sess).messages =
      (turnLoop cb cancel sess.messages).messages ∧
    (process_chat_run cb cancel sess).last_aider_commit_hash =
      sess.last_aider_commit_hash := by
  unfold process_chat_run
  simp [ho]

theorem postTail_count_zero (p : Event → Bool) (pt : List Event)
    (hpt : PostTail pt)
    (hfe : ∀ fs, p (Event.files_edited fs) = false)
    (hcm : ∀ h m d, p (Event.commit h m d) = false) :
    countP p pt = 0 := by
  cases hpt with
  | nil => rfl
  | fe fs => simp [countP, List.filter_cons, hfe]
  | cm h m d => simp [countP, List.filter_cons, hcm]
  | both fs h m d => simp [countP, List.filter_cons, hfe, hcm]

theorem turnLoop_code (cb : CoderBehavior) (cancel : Nat → Bool)
    (msgs : List Msg) (hmode : cb.edit_format = "code") :
    turnLoop cb cancel msgs =
      codeLoop cb.rounds cancel max_reflections 0 0 msgs := by
  unfold turnLoop
  simp [hmode]

/-- C3: in code mode a turn performs at most 3 reflection rounds (at most
3 reflection_info events and at most 4 message_complete events); when
every round keeps producing a reflected message and nothing cancels or
raises, exactly 3 reflections happen, exactly 4 responses are streamed,
and the 4th reflected message produces a reflection_limit event instead of
a new prompt cycle. -/
theorem C3_reflection_limit (cb : CoderBehavior) (cancel : Nat → Bool)
    (sess : SessionData) (hmode : cb.edit_format = "code") :
    countP isReflInfoEv (process_chat_run cb cancel sess).events ≤ 3 ∧
    countP isCompleteEv (process_chat_run cb cancel sess).events ≤ 4 ∧
    ((∀ k, cancel k = false) → (∀ j, (cb.rounds j).raisesAfter = none) →
      (∀ j, (cb.rounds j).reflected.isSome) →
      countP isReflInfoEv (process_chat_run cb cancel sess).events = 3 ∧
      countP isCompleteEv (process_chat_run cb cancel sess).events = 4 ∧
      Event.reflection_limit reflectionLimitMsg ∈
        (process_chat_run cb cancel sess).events) := by
  have hcode := turnLoop_code cb cancel sess.messages hmode
  have hri : countP isReflInfoEv (turnLoop cb cancel sess.messages).events ≤ 3 := by
    rw [hcode]
    exact codeLoop_reflinfo_le cb.rounds cancel max_reflections 0 0 sess.messages
  have hcl : countP isCompleteEv (turnLoop cb cancel sess.messages).events ≤ 4 := by
    rw [hcode]
    exact codeLoop_complete_le cb.rounds cancel max_reflections 0 0 sess.messages
  have hevsplit :
      (process_chat_run cb cancel sess).events =
        (turnLoop cb cancel sess.messages).events ∨
      (process_chat_run cb cancel sess).events =
        (turnLoop cb cancel sess.messages).events ++
          (filesEditedEvents cb ++
            (commitCheck cb sess.last_aider_commit_hash).1) := by
    cases ho : (turnLoop cb cancel sess.messages).outcome with
    | cancelled => exact Or.inl (process_cancelled cb cancel sess ho).1
    | raised => exact Or.inl (process_raised cb cancel sess ho).1
    | finished => exact Or.inr (process_finished cb cancel sess ho).1
  have hpz1 : countP isReflInfoEv
      (filesEditedEvents cb ++
        (commitCheck cb sess.last_aider_commit_hash).1) = 0 :=
    postTail_count_zero isReflInfoEv _
      (postTail_post cb sess.last_aider_commit_hash)
      (fun fs => rfl) (fun h m d => rfl)
  have hpz2 : countP isCompleteEv
      (filesEditedEvents cb ++
        (commitCheck cb sess.last_aider_commit_hash).1) = 0 :=
    postTail_count_zero isCompleteEv _
      (postTail_post cb sess.last_aider_commit_hash)
      (fun fs => rfl) (fun h m d => rfl)
  refine ⟨?_, ?_, ?_⟩
  · rcases hevsplit with hev | hev
    · rw [hev]; exact hri
    · rw [hev, countP_append, hpz1]; simpa using hri
  · rcases hevsplit with hev | hev
    · rw [hev]; exact hcl
    · rw [hev, countP_append, hpz2]; simpa using hcl
  · intro hcancel hnr hrefl
    obtain ⟨hout, hc1, hc2, hmem⟩ :=
      codeLoop_all_reflect cb.rounds cancel hcancel hnr hrefl
        max_reflections 0 0 sess.messages
    have ho : (turnLoop cb cancel sess.messages).outcome = TurnOutcome.finished := by
      rw [hcode]; exact hout
    obtain ⟨hev, _, _, _⟩ := process_finished cb cancel sess ho
    refine ⟨?_, ?_, ?_⟩
    · rw [hev, countP_append, hpz1, hcode]
      simpa [max_reflections] using hc1
    · rw [hev, countP_append, hpz2, hcode]
      simpa [max_reflections] using hc2
    · rw [hev]
      exact List.mem_append_left _ (by rw [hcode]; exact hmem)

/-- Witness for C3 at a concrete input: code mode, every round streams one
chunk and reflects again, no cancellation. -/
theorem C3_reflection_limit_witness :
    c3cb.edit_format = "code" ∧
    countP isReflInfoEv
      (process_chat_run c3cb (fun _ => false) emptySession).events ≤ 3 ∧
    countP isCompleteEv
      (process_chat_run c3cb (fun _ => false) emptySession).events ≤ 4 ∧
    (countP isReflInfoEv
        (process_chat_run c3cb (fun _ => false) emptySession).events = 3 ∧
      countP isCompleteEv
        (process_chat_run c3cb (fun _ => false) emptySession).events = 4 ∧
      Event.reflection_limit reflectionLimitMsg ∈
        (process_chat_run c3cb (fun _ => false) emptySession).events) :=
  ⟨rfl,
   (C3_reflection_limit c3cb (fun _ => false) emptySession rfl).1,
   (C3_reflection_limit c3cb (fun _ => false) emptySession rfl).2.1,
   (C3_reflection_limit c3cb (fun _ => false) emptySession rfl).2.2
     (fun _ => rfl) (fun _ => rfl) (fun _ => rfl)⟩

theorem turnLoop_simple (cb : CoderBehavior) (cancel : Nat → Bool)
    (msgs : List Msg) (hmode : cb.edit_format ≠ "code") :
    turnLoop cb cancel msgs =
      simpleRun (cb.rounds 0) cb.edit_format cancel 0 msgs := by
  unfold turnLoop
  simp [hmode]

/-- C4: in a non-code mode a turn streams exactly one response round (the
run only ever consults the first round the coder produces, and publishes
at most one message_complete, exactly one when it completes normally); a
reflected message is surfaced as a reflection_info event plus a
refresh_files hint and appended to the transcript as an info entry, never
re-submitted as a new prompt. -/
theorem C4_simple_mode (cb : CoderBehavior) (cancel : Nat → Bool)
    (sess : SessionData) (hmode : cb.edit_format ≠ "code") :
    process_chat_run cb cancel sess =
      process_chat_run { cb with rounds := fun _ => cb.rounds 0 } cancel sess ∧
    countP isCompleteEv (process_chat_run cb cancel sess).events ≤ 1 ∧
    ((process_chat_run cb cancel sess).outcome = TurnOutcome.finished →
      countP isCompleteEv (process_chat_run cb cancel sess).events = 1) ∧
    (∀ m, (cb.rounds 0).reflected = some m →
      (process_chat_run cb cancel sess).outcome = TurnOutcome.finished →
      Event.reflection_info ("[" ++ cb.edit_format.toUpper ++ " Mode] " ++ m) 1 ∈
        (process_chat_run cb cancel sess).events ∧
      Event.refresh_files cb.edit_format.toUpper ∈
        (process_chat_run cb cancel sess).events ∧
      (⟨"info", "🤔 AI Note (" ++ cb.edit_format.toUpper ++ " Mode): " ++ m⟩ : Msg) ∈
        (process_chat_run cb cancel sess).messages) := by
  have hsim := turnLoop_simple cb cancel sess.messages hmode
  have hpz2 : countP isCompleteEv
      (filesEditedEvents cb ++
        (commitCheck cb sess.last_aider_commit_hash).1) = 0 :=
    postTail_count_zero isCompleteEv _
      (postTail_post cb sess.last_aider_commit_hash)
      (fun fs => rfl) (fun h m d => rfl)
  have hevsplit :
      (process_chat_run cb cancel sess).events =
        (turnLoop cb cancel sess.messages).events ∨
      ((turnLoop cb cancel sess.messages).outcome = TurnOutcome.finished ∧
       (process_chat_run cb cancel sess).events =
        (turnLoop cb cancel sess.messages).events ++
          (filesEditedEvents cb ++
            (commitCheck cb sess.last_aider_commit_hash).1)) := by
    cases ho : (turnLoop cb cancel sess.messages).outcome with
    | cancelled => exact Or.inl (process_cancelled cb cancel sess ho).1
    | raised => exact Or.inl (process_raised cb cancel sess ho).1
    | finished => exact Or.inr ⟨rfl, (process_finished cb cancel sess ho).1⟩
  refine ⟨?_, ?_, ?_, ?_⟩
  · unfold process_chat_run turnLoop
    cases ho2 : (simpleRun (cb.rounds 0) cb.edit_format cancel 0
        sess.messages).outcome <;>
      simp [hmode, ho2, filesEditedEvents, commitCheck]
  · rcases hevsplit with hev | ⟨_, hev⟩
    · rw [hev, hsim]
      exact (simpleRun_complete_count (cb.rounds 0) cb.edit_format cancel 0
        sess.messages).1
    · rw [hev, countP_append, hpz2, hsim]
      simpa using (simpleRun_complete_count (cb.rounds 0) cb.edit_format cancel 0
        sess.messages).1
  · intro hf
    have ho : (turnLoop cb cancel sess.messages).outcome = TurnOutcome.finished := by
      rw [← process_outcome_eq cb cancel sess]; exact hf
    obtain ⟨hev, _, _, _⟩ := process_finished cb cancel sess ho
    rw [hev, countP_append, hpz2]
    have h1 := (simpleRun_complete_count (cb.rounds 0) cb.edit_format cancel 0
      sess.messages).2 (by rw [← hsim]; exact ho)
    rw [hsim]
    simpa using h1
  · intro m hm hf
    have ho : (turnLoop cb cancel sess.messages).outcome = TurnOutcome.finished := by
      rw [← process_outcome_eq cb cancel sess]; exact hf
    obtain ⟨hev, _, _, hmsg⟩ := process_finished cb cancel sess ho
    obtain ⟨h1, h2, h3⟩ := simpleRun_reflected (cb.rounds 0) cb.edit_format cancel
      0 sess.messages m hm (by rw [← hsim]; exact ho)
    refine ⟨?_, ?_, ?_⟩
    · rw [hev]
      exact List.mem_append_left _ (by rw [hsim]; exact h1)
    · rw [hev]
      exact List.mem_append_left _ (by rw [hsim]; exact h2)
    · rw [hmsg, hsim]
      exact h3

/-- Witness for C4 at a concrete input: ask mode, one chunk, a reflected
message. -/
theorem C4_simple_mode_witness :
    ("ask" : String) ≠ "code" ∧
    (process_chat_run c4cb (fun _ => false) emptySession =
      process_chat_run { c4cb with rounds := fun _ => c4cb.rounds 0 }
        (fun _ => false) emptySession ∧
    countP isCompleteEv
      (process_chat_run c4cb (fun _ => false) emptySession).events ≤ 1 ∧
    ((process_chat_run c4cb (fun _ => false) emptySession).outcome =
        TurnOutcome.finished →
      countP isCompleteEv
        (process_chat_run c4cb (fun _ => false) emptySession).events = 1) ∧
    (∀ m, (c4cb.rounds 0).reflected = some m →
      (process_chat_run c4cb (fun _ => false) emptySession).outcome =
        TurnOutcome.finished →
      Event.reflection_info ("[" ++ c4cb.edit_format.toUpper ++ " Mode] " ++ m) 1 ∈
        (process_chat_run c4cb (fun _ => false) emptySession).events ∧
      Event.refresh_files c4cb.edit_format.toUpper ∈
        (process_chat_run c4cb (fun _ => false) emptySession).events ∧
      (⟨"info", "🤔 AI Note (" ++ c4cb.edit_format.toUpper ++ " Mode): " ++ m⟩ : Msg) ∈
        (process_chat_run c4cb (fun _ => false) emptySession).messages)) :=
  ⟨by decide, C4_simple_mode c4cb (fun _ => false) emptySession (by decide)⟩

theorem commitCheck_spec (cb : CoderBehavior) (sl : Option String) :
    (∃ h d, cb.last_aider_commit_hash = some h ∧ h ≠ "" ∧ sl ≠ some h ∧
      cb.diff_commits = Except.ok d ∧
      commitCheck cb sl =
        ([Event.commit h cb.last_aider_commit_message d], some h)) ∨
    (commitCheck cb sl = ([], sl) ∧
      ¬ ∃ h d, cb.last_aider_commit_hash = some h ∧ h ≠ "" ∧ sl ≠ some h ∧
        cb.diff_commits = Except.ok d) := by
  unfold commitCheck
  cases hl : cb.last_aider_commit_hash with
  | none =>
    refine Or.inr ⟨rfl, ?_⟩
    rintro ⟨h, d, hh, -, -, -⟩
    cases hh
  | some h =>
    dsimp only
    by_cases hcond : sl ≠ some h ∧ h ≠ ""
    · rw [if_pos hcond]
      cases hd : cb.diff_commits with
      | ok d =>
        exact Or.inl ⟨h, d, rfl, hcond.2, hcond.1, rfl, rfl⟩
      | error e =>
        refine Or.inr ⟨rfl, ?_⟩
        rintro ⟨h2, d2, hh2, -, -, hd2⟩
        exact Except.noConfusion hd2
    · rw [if_neg hcond]
      refine Or.inr ⟨rfl, ?_⟩
      rintro ⟨h2, d2, hh2, hne2, hsl2, -⟩
      injection hh2 with hh2
      subst hh2
      exact hcond ⟨hsl2, hne2⟩

/-- C7: after a turn whose streaming loop ran to completion, a commit
event (carrying hash, commit message and diff) is published exactly when
the live last_aider_commit_hash of the coder is truthy, differs from the
cached hash of the session, and the diff computes; on emission the cached
hash advances to the live value and the event carries the computed diff;
when the diff computation raises, the emission and the cache advance are
skipped and the turn still completes (the session is saved and no error
event is published). -/
theorem C7_commit_reconciliation (cb : CoderBehavior) (cancel : Nat → Bool)
    (sess : SessionData)
    (hf : (process_chat_run cb cancel sess).outcome = TurnOutcome.finished) :
    (∀ h d, cb.last_aider_commit_hash = some h → h ≠ "" →
      sess.last_aider_commit_hash ≠ some h → cb.diff_commits = Except.ok d →
      Event.commit h cb.last_aider_commit_message d ∈
        (process_chat_run cb cancel sess).events ∧
      (process_chat_run cb cancel sess).last_aider_commit_hash = some h) ∧
    (countP isCommitEv (process_chat_run cb cancel sess).events = 1 →
      ∃ h d, cb.last_aider_commit_hash = some h ∧ h ≠ "" ∧
        sess.last_aider_commit_hash ≠ some h ∧
        cb.diff_commits = Except.ok d) ∧
    countP isCommitEv (process_chat_run cb cancel sess).events ≤ 1 ∧
    ((∃ e, cb.diff_commits = Except.error e) →
      countP isCommitEv (process_chat_run cb cancel sess).events = 0 ∧
      (process_chat_run cb cancel sess).last_aider_commit_hash =
        sess.last_aider_commit_hash) ∧
    (process_chat_run cb cancel sess).saved = true ∧
    countP isErrorEv (process_chat_run cb cancel sess).events = 0 := by
  have ho : (turnLoop cb cancel sess.messages).outcome = TurnOutcome.finished := by
    rw [← process_outcome_eq cb cancel sess]; exact hf
  obtain ⟨hev, hlast, hsaved, hmsg⟩ := process_finished cb cancel sess ho
  have hlr0 : countP isCommitEv (turnLoop cb cancel sess.messages).events = 0 :=
    turnLoop_count_zero cb cancel sess.messages isCommitEv
      (fun c => rfl) (fun c => rfl) rfl (fun m n => rfl) (fun m => rfl)
      (fun m => rfl) (fun m => rfl)
  have hfe0 : countP isCommitEv (filesEditedEvents cb) = 0 := by
    unfold filesEditedEvents
    split <;> simp [countP, List.filter_cons, isCommitEv]
  have hcount : countP isCommitEv (process_chat_run cb cancel sess).events =
      countP isCommitEv (commitCheck cb sess.last_aider_commit_hash).1 := by
    rw [hev, countP_append, countP_append, hlr0, hfe0]
    omega
  have herr0 : countP isErrorEv (process_chat_run cb cancel sess).events = 0 := by
    rw [hev, countP_append, turnLoop_finished_no_error cb cancel sess.messages ho,
      postTail_count_zero isErrorEv _ (postTail_post cb sess.last_aider_commit_hash)
        (fun fs => rfl) (fun h m d => rfl)]
  rcases commitCheck_spec cb sess.last_aider_commit_hash with
    ⟨h0, d0, hh0, hne0, hsl0, hd0, hcc⟩ | ⟨hcc, hnot⟩
  · refine ⟨?_, ?_, ?_, ?_, hsaved, herr0⟩
    · intro h d hh hne hsl hd
      rw [hh0] at hh
      injection hh with hh
      subst hh
      rw [hd0] at hd
      injection hd with hd
      subst hd
      constructor
      · rw [hev, hcc]
        exact List.mem_append_right _ (List.mem_append_right _ (by simp))
      · rw [hlast, hcc]
    · intro _
      exact ⟨h0, d0, hh0, hne0, hsl0, hd0⟩
    · rw [hcount, hcc]
      simp [countP, List.filter_cons, isCommitEv]
    · rintro ⟨e, he⟩
      rw [hd0] at he
      cases he
  · refine ⟨?_, ?_, ?_, ?_, hsaved, herr0⟩
    · intro h d hh hne hsl hd
      exact absurd ⟨h, d, hh, hne, hsl, hd⟩ hnot
    · intro hc1
      rw [hcount, hcc] at hc1
      cases hc1
    · rw [hcount, hcc]
      simp [countP]
    · intro _
      refine ⟨by rw [hcount, hcc]; rfl, by rw [hlast, hcc]⟩

/-- Witness for C7 at a concrete input: one plain round, a new live commit
abc with diff DIFF, empty cached hash. -/
theorem C7_commit_reconciliation_witness :
    (process_chat_run c7cb (fun _ => false) emptySession).outcome =
      TurnOutcome.finished ∧
    Event.commit "abc" "msg" "DIFF" ∈
      (process_chat_run c7cb (fun _ => false) emptySession).events ∧
    (process_chat_run c7cb (fun _ => false) emptySession).last_aider_commit_hash =
      some "abc" ∧
    (process_chat_run c7cb (fun _ => false) emptySession).saved = true :=
  ⟨by decide,
   ((C7_commit_reconciliation c7cb (fun _ => false) emptySession (by decide)).1
      "abc" "DIFF" rfl (by decide) (by decide) rfl).1,
   ((C7_commit_reconciliation c7cb (fun _ => false) emptySession (by decide)).1
      "abc" "DIFF" rfl (by decide) (by decide) rfl).2,
   (C7_commit_reconciliation c7cb (fun _ => false) emptySession
      (by decide)).2.2.2.2.1⟩

theorem process_messages_eq (cb : CoderBehavior) (cancel : Nat → Bool)
    (sess : SessionData) :
    (process_chat_run cb cancel sess).messages =
      (turnLoop cb cancel sess.messages).messages := by
  unfold process_chat_run
  cases ho : (turnLoop cb cancel sess.messages).outcome <;> simp [ho]

/-- C5, as stated, fails on the code: with the cached hash equal to the
supplied hash but the live coder hash different, undo_commit still answers
with the client-fault response and does not reset the cached hash. -/
theorem C5_counterexample :
    c5sess.last_aider_commit_hash = some "h1" ∧
    (undo_commit c5sess (some "h2") "L" none "h1").1 ≠ ApiResult.ok "L" ∧
    (undo_commit c5sess (some "h2") "L" none "h1").1 =
      ApiResult.clientError "Commit h1 is not the latest commit" ∧
    (undo_commit c5sess (some "h2") "L" none "h1").2.last_aider_commit_hash ≠
      none := by
  decide

/-- C5 (amended): undo_commit answers with a client-fault (400) response
exactly when the supplied hash differs from the cached last-commit hash of
the session or from the live last-commit hash of the coder; when it equals
both, the request succeeds, the cached hash is reset to null, and on
failure the session is left unchanged. -/
theorem C5_amended_undo (sess : SessionData) (coderLast : Option String)
    (lines : String) (reply : Option String) (ch : String) (hch : ch ≠ "") :
    ((∃ m, (undo_commit sess coderLast lines reply ch).1 =
        ApiResult.clientError m) ↔
      (sess.last_aider_commit_hash ≠ some ch ∨ coderLast ≠ some ch)) ∧
    (sess.last_aider_commit_hash = some ch → coderLast = some ch →
      (undo_commit sess coderLast lines reply ch).1 = ApiResult.ok lines ∧
      (undo_commit sess coderLast lines reply ch).2.last_aider_commit_hash =
        none) ∧
    ((sess.last_aider_commit_hash ≠ some ch ∨ coderLast ≠ some ch) →
      (undo_commit sess coderLast lines reply ch).2 = sess) := by
  unfold undo_commit
  rw [if_neg hch]
  by_cases hcond : sess.last_aider_commit_hash ≠ some ch ∨ coderLast ≠ some ch
  · rw [if_pos hcond]
    refine ⟨⟨fun _ => hcond, fun _ => ⟨_, rfl⟩⟩, ?_, fun _ => rfl⟩
    intro h1 h2
    rcases hcond with hc | hc
    · exact absurd h1 hc
    · exact absurd h2 hc
  · rw [if_neg hcond]
    push_neg at hcond
    refine ⟨⟨?_, fun hor => ?_⟩, fun _ _ => ⟨rfl, rfl⟩, fun hor => ?_⟩
    · rintro ⟨m, hm⟩
      cases hm
    · rcases hor with hc | hc
      · exact absurd hcond.1 hc
      · exact absurd hcond.2 hc
    · rcases hor with hc | hc
      · exact absurd hcond.1 hc
      · exact absurd hcond.2 hc

/-- Witness for C5 (amended) at a concrete input where the supplied hash
matches both the cached and the live hash. -/
theorem C5_amended_undo_witness :
    ("h1" : String) ≠ "" ∧
    (undo_commit c5sess (some "h1") "L" none "h1").1 = ApiResult.ok "L" ∧
    (undo_commit c5sess (some "h1") "L" none "h1").2.last_aider_commit_hash =
      none :=
  ⟨by decide,
   ((C5_amended_undo c5sess (some "h1") "L" none "h1" (by decide)).2.1
      rfl rfl).1,
   ((C5_amended_undo c5sess (some "h1") "L" none "h1" (by decide)).2.1
      rfl rfl).2⟩

/-- C6: saving a session and loading it back reproduces exactly the
transcript, file set, cached last-commit hash, input history and creation
time; the coder handle is not part of what is saved (two sessions
differing only in their coder handle save identically). -/
theorem C6_roundtrip (disk : List (String × SavedSession)) (session_id : String)
    (sess : SessionData) :
    load_session (save_session disk session_id sess) session_id =
      some ⟨sess.messages, sess.files, sess.last_aider_commit_hash,
        sess.input_history, sess.created_at⟩ ∧
    (∀ c, save_session disk session_id { sess with coder := c } =
      save_session disk session_id sess) := by
  constructor
  · unfold load_session save_session
    simp
  · intro c
    rfl

/-- C8: on a session with at least two transcript entries, clear_history
keeps exactly the first two entries, removes everything after them and
appends the info notice; and a turn only ever appends to the transcript
(the turn task never truncates it). -/
theorem C8_clear_history (sess : SessionData) (cb : CoderBehavior)
    (cancel : Nat → Bool) (h2 : 2 ≤ sess.messages.length) :
    (clear_history sess).messages =
      sess.messages.take 2 ++ [⟨"info", clearNotice⟩] ∧
    (clear_history sess).messages.take 2 = sess.messages.take 2 ∧
    (∃ t, (process_chat_run cb cancel sess).messages = sess.messages ++ t) := by
  refine ⟨rfl, ?_, ?_⟩
  · unfold clear_history
    have hlen : 2 ≤ (sess.messages.take 2).length := by
      simp [List.length_take]
      omega
    rw [List.take_append_of_le_length hlen]
    simp [List.take_take]
  · obtain ⟨t, ht⟩ := turnLoop_append_only cb cancel sess.messages
    exact ⟨t, by rw [process_messages_eq cb cancel sess, ht]⟩

/-- Witness for C8 at a concrete session with three transcript entries. -/
theorem C8_clear_history_witness :
    2 ≤ c8sess.messages.length ∧
    (clear_history c8sess).messages =
      c8sess.messages.take 2 ++ [⟨"info", clearNotice⟩] ∧
    (clear_history c8sess).messages.take 2 = c8sess.messages.take 2 ∧
    (∃ t, (process_chat_run c8cb (fun _ => false) c8sess).messages =
      c8sess.messages ++ t) :=
  ⟨by decide,
   (C8_clear_history c8sess c8cb (fun _ => false) (by decide)).1,
   (C8_clear_history c8sess c8cb (fun _ => false) (by decide)).2.1,
   (C8_clear_history c8sess c8cb (fun _ => false) (by decide)).2.2⟩

/-- C10: both initialize_project and update_model leave the process
working directory as they found it, on the success path as well as when
coder construction fails. -/
theorem C10_cwd_restored (cwd session_id project_path model : String)
    (env : ProjectEnv) (sessionFound : Bool) (spath : Option String)
    (coderInit : Except String Unit) :
    (init_project cwd session_id project_path env).2 = cwd ∧
    (update_model cwd session_id model sessionFound spath coderInit).2 = cwd := by
  constructor
  · unfold init_project
    by_cases h1 : session_id = "" ∨ project_path = ""
    · rw [if_pos h1]
    · rw [if_neg h1]
      by_cases h2 : ¬ env.pathExists
      · rw [if_pos h2]
      · rw [if_neg h2]
        by_cases h3 : ¬ env.isGitRepo
        · rw [if_pos h3]
        · rw [if_neg h3]
          cases env.coderInit <;> rfl
  · unfold update_model
    by_cases h1 : session_id = "" ∨ model = ""
    · rw [if_pos h1]
    · rw [if_neg h1]
      by_cases h2 : ¬ sessionFound
      · rw [if_pos h2]
      · rw [if_neg h2]
        by_cases h3 : spath.getD cwd ≠ cwd
        · cases coderInit <;> simp [h3]
        · cases coderInit <;> simp [h3]

theorem codeLoop_cancelled_messages (rounds : Nat → Round) (cancel : Nat → Bool) :
    ∀ (budget numRefl checkIdx : Nat) (msgs : List Msg),
      (codeLoop rounds cancel budget numRefl checkIdx msgs).outcome =
        TurnOutcome.cancelled →
      ∃ ps : List (String × String),
        (codeLoop rounds cancel budget numRefl checkIdx msgs).messages =
          msgs ++ ps.flatMap
            (fun p => [⟨"assistant", p.1⟩, ⟨"info", p.2⟩]) ∧
        countP isCompleteEv
          (codeLoop rounds cancel budget numRefl checkIdx msgs).events =
          ps.length ∧
        countP isReflInfoEv
          (codeLoop rounds cancel budget numRefl checkIdx msgs).events =
          ps.length ∧
        ∀ p ∈ ps,
          Event.message_complete p.1 ∈
            (codeLoop rounds cancel budget numRefl checkIdx msgs).events ∧
          ∃ nn, Event.reflection_info p.2 nn ∈
            (codeLoop rounds cancel budget numRefl checkIdx msgs).events := by
  intro budget
  induction budget with
  | zero =>
    intro numRefl checkIdx msgs hout
    unfold codeLoop at hout ⊢
    cases hs : streamChunks cancel checkIdx (rounds numRefl).chunks with
    | cancelled evs n =>
      obtain ⟨pre, hpre, hco⟩ :=
        streamChunks_cancelled_shape cancel (rounds numRefl).chunks checkIdx evs n hs
      have hz1 : List.filter isCompleteEv pre = [] :=
        List.filter_eq_nil_iff.mpr (fun a ha => by
          obtain ⟨c, rfl⟩ := hco a ha; simp [isCompleteEv])
      have hz2 : List.filter isReflInfoEv pre = [] :=
        List.filter_eq_nil_iff.mpr (fun a ha => by
          obtain ⟨c, rfl⟩ := hco a ha; simp [isReflInfoEv])
      refine ⟨[], by simp [hs], ?_, ?_, by simp⟩
      · simp [hs, hpre, countP, List.filter_append, List.filter_cons,
          isCompleteEv, hz1]
      · simp [hs, hpre, countP, List.filter_append, List.filter_cons,
          isReflInfoEv, hz2]
    | done evs full n =>
      cases hra : (rounds numRefl).raisesAfter with
      | some em => simp [hs, hra] at hout
      | none =>
        cases hrf : (rounds numRefl).reflected with
        | none => simp [hs, hra, hrf] at hout
        | some rm => simp [hs, hra, hrf] at hout
  | succ b ih =>
    intro numRefl checkIdx msgs hout
    unfold codeLoop at hout ⊢
    cases hs : streamChunks cancel checkIdx (rounds numRefl).chunks with
    | cancelled evs n =>
      obtain ⟨pre, hpre, hco⟩ :=
        streamChunks_cancelled_shape cancel (rounds numRefl).chunks checkIdx evs n hs
      have hz1 : List.filter isCompleteEv pre = [] :=
        List.filter_eq_nil_iff.mpr (fun a ha => by
          obtain ⟨c, rfl⟩ := hco a ha; simp [isCompleteEv])
      have hz2 : List.filter isReflInfoEv pre = [] :=
        List.filter_eq_nil_iff.mpr (fun a ha => by
          obtain ⟨c, rfl⟩ := hco a ha; simp [isReflInfoEv])
      refine ⟨[], by simp [hs], ?_, ?_, by simp⟩
      · simp [hs, hpre, countP, List.filter_append, List.filter_cons,
          isCompleteEv, hz1]
      · simp [hs, hpre, countP, List.filter_append, List.filter_cons,
          isReflInfoEv, hz2]
    | done evs full n =>
      have hcoevs := streamChunks_done_chunksOnly cancel (rounds numRefl).chunks
        checkIdx evs full n hs
      have hz1 : List.filter isCompleteEv evs = [] :=
        List.filter_eq_nil_iff.mpr (fun a ha => by
          obtain ⟨c, rfl⟩ := hcoevs a ha; simp [isCompleteEv])
      have hz2 : List.filter isReflInfoEv evs = [] :=
        List.filter_eq_nil_iff.mpr (fun a ha => by
          obtain ⟨c, rfl⟩ := hcoevs a ha; simp [isReflInfoEv])
      cases hra : (rounds numRefl).raisesAfter with
      | some em => simp [hs, hra] at hout
      | none =>
        cases hrf : (rounds numRefl).reflected with
        | none => simp [hs, hra, hrf] at hout
        | some rm =>
          simp only [hs, hra, hrf, List.append_assoc, List.singleton_append,
            List.cons_append, List.nil_append] at hout ⊢
          obtain ⟨ps, hmsg, hc1, hc2, hmem⟩ :=
            ih (numRefl + 1) n (msgs ++ [⟨"assistant", full⟩, ⟨"info", rm⟩]) hout
          refine ⟨(full, rm) :: ps, ?_, ?_, ?_, ?_⟩
          · simp [hmsg]
          · simp [countP, List.filter_append, List.filter_cons, isCompleteEv,
              hz1] at hc1 ⊢
            omega
          · simp [countP, List.filter_append, List.filter_cons, isReflInfoEv,
              hz2] at hc2 ⊢
            omega
          · intro p hp
            rcases List.mem_cons.mp hp with rfl | hp2
            · exact ⟨by simp, numRefl + 1, by simp⟩
            · obtain ⟨hm1, nn, hm2⟩ := hmem p hp2
              exact ⟨by simp [hm1], nn, by simp [hm2]⟩

theorem simpleRun_cancelled_messages (r : Round) (mode : String)
    (cancel : Nat → Bool) (checkIdx : Nat) (msgs : List Msg)
    (hout : (simpleRun r mode cancel checkIdx msgs).outcome =
      TurnOutcome.cancelled) :
    (simpleRun r mode cancel checkIdx msgs).messages = msgs ∧
    countP isCompleteEv (simpleRun r mode cancel checkIdx msgs).events = 0 ∧
    countP isReflInfoEv (simpleRun r mode cancel checkIdx msgs).events = 0 := by
  unfold simpleRun at hout ⊢
  cases hs : streamChunks cancel checkIdx r.chunks with
  | cancelled evs n =>
    obtain ⟨pre, hpre, hco⟩ :=
      streamChunks_cancelled_shape cancel r.chunks checkIdx evs n hs
    have hz1 : List.filter isCompleteEv pre = [] :=
      List.filter_eq_nil_iff.mpr (fun a ha => by
        obtain ⟨c, rfl⟩ := hco a ha; simp [isCompleteEv])
    have hz2 : List.filter isReflInfoEv pre = [] :=
      List.filter_eq_nil_iff.mpr (fun a ha => by
        obtain ⟨c, rfl⟩ := hco a ha; simp [isReflInfoEv])
    refine ⟨by simp [hs], ?_, ?_⟩
    · simp [hs, hpre, countP, List.filter_append, List.filter_cons,
        isCompleteEv, hz1]
    · simp [hs, hpre, countP, List.filter_append, List.filter_cons,
        isReflInfoEv, hz2]
  | done evs full n =>
    cases hra : r.raisesAfter with
    | some em => simp [hs, hra] at hout
    | none =>
      cases hrf : r.reflected with
      | none => simp [hs, hra, hrf] at hout
      | some rm => simp [hs, hra, hrf] at hout

theorem turnLoop_cancelled_messages (cb : CoderBehavior) (cancel : Nat → Bool)
    (msgs : List Msg)
    (hout : (turnLoop cb cancel msgs).outcome = TurnOutcome.cancelled) :
    ∃ ps : List (String × String),
      (turnLoop cb cancel msgs).messages =
        msgs ++ ps.flatMap (fun p => [⟨"assistant", p.1⟩, ⟨"info", p.2⟩]) ∧
      countP isCompleteEv (turnLoop cb cancel msgs).events = ps.length ∧
      countP isReflInfoEv (turnLoop cb cancel msgs).events = ps.length ∧
      ∀ p ∈ ps,
        Event.message_complete p.1 ∈ (turnLoop cb cancel msgs).events ∧
        ∃ nn, Event.reflection_info p.2 nn ∈ (turnLoop cb cancel msgs).events := by
  unfold turnLoop at hout ⊢
  by_cases h : cb.edit_format == "code"
  · simp only [h, if_true] at hout ⊢
    exact codeLoop_cancelled_messages cb.rounds cancel max_reflections 0 0
      msgs hout
  · simp only [h, if_false] at hout ⊢
    obtain ⟨hm, h1, h2⟩ := simpleRun_cancelled_messages (cb.rounds 0)
      cb.edit_format cancel 0 msgs hout
    exact ⟨[], by simp [hm], by simp [h1], by simp [h2], by simp⟩

/-- C9 (amended): when a turn terminates via cancellation, the task stops
immediately after publishing message_cancelled: that event is the last one
published (in particular no files_edited and no commit event), the cached
last-commit hash is unchanged, the session is not saved to disk, and the
transcript has grown by exactly one assistant entry and one info entry per
reflection round completed before the cancellation (one pair per
message_complete / reflection_info event already published) — the round in
progress when the flag was observed appends nothing. -/
theorem C9_amended (cb : CoderBehavior) (cancel : Nat → Bool)
    (sess : SessionData)
    (hc : (process_chat_run cb cancel sess).outcome = TurnOutcome.cancelled) :
    (∃ pre, (process_chat_run cb cancel sess).events =
      pre ++ [Event.message_cancelled]) ∧
    countP isFilesEditedEv (process_chat_run cb cancel sess).events = 0 ∧
    countP isCommitEv (process_chat_run cb cancel sess).events = 0 ∧
    (process_chat_run cb cancel sess).last_aider_commit_hash =
      sess.last_aider_commit_hash ∧
    (process_chat_run cb cancel sess).saved = false ∧
    (∃ ps : List (String × String),
      (process_chat_run cb cancel sess).messages =
        sess.messages ++
          ps.flatMap (fun p => [⟨"assistant", p.1⟩, ⟨"info", p.2⟩]) ∧
      countP isCompleteEv (process_chat_run cb cancel sess).events =
        ps.length ∧
      countP isReflInfoEv (process_chat_run cb cancel sess).events =
        ps.length ∧
      ∀ p ∈ ps,
        Event.message_complete p.1 ∈ (process_chat_run cb cancel sess).events ∧
        ∃ nn, Event.reflection_info p.2 nn ∈
          (process_chat_run cb cancel sess).events) := by
  have ho : (turnLoop cb cancel sess.messages).outcome = TurnOutcome.cancelled := by
    rw [← process_outcome_eq cb cancel sess]; exact hc
  obtain ⟨hev, _, hsv, hmsg, hlast⟩ := process_cancelled cb cancel sess ho
  obtain ⟨pre, hpre, _⟩ := turnLoop_cancelled_shape cb cancel sess.messages ho
  obtain ⟨ps, hm, h1, h2, hmem⟩ :=
    turnLoop_cancelled_messages cb cancel sess.messages ho
  refine ⟨⟨pre, by rw [hev, hpre]⟩, ?_, ?_, hlast, hsv,
    ⟨ps, by rw [hmsg, hm], by rw [hev]; exact h1, by rw [hev]; exact h2, ?_⟩⟩
  · rw [hev]
    exact turnLoop_count_zero cb cancel sess.messages isFilesEditedEv
      (fun c => rfl) (fun c => rfl) rfl (fun m n => rfl) (fun m => rfl)
      (fun m => rfl) (fun m => rfl)
  · rw [hev]
    exact turnLoop_count_zero cb cancel sess.messages isCommitEv
      (fun c => rfl) (fun c => rfl) rfl (fun m n => rfl) (fun m => rfl)
      (fun m => rfl) (fun m => rfl)
  · intro p hp
    obtain ⟨hm1, nn, hm2⟩ := hmem p hp
    exact ⟨by rw [hev]; exact hm1, nn, by rw [hev]; exact hm2⟩

/-- Witness for C9 (amended) at the same concrete cancelled run as the
counterexample: one reflection round completes before the flag is
observed, so the transcript grows by exactly that round's assistant and
info pair. -/
theorem C9_amended_witness :
    (process_chat_run c9cb c9cancel emptySession).outcome =
      TurnOutcome.cancelled ∧
    ((∃ pre, (process_chat_run c9cb c9cancel emptySession).events =
      pre ++ [Event.message_cancelled]) ∧
    countP isFilesEditedEv
      (process_chat_run c9cb c9cancel emptySession).events = 0 ∧
    countP isCommitEv (process_chat_run c9cb c9cancel emptySession).events = 0 ∧
    (process_chat_run c9cb c9cancel emptySession).last_aider_commit_hash =
      emptySession.last_aider_commit_hash ∧
    (process_chat_run c9cb c9cancel emptySession).saved = false ∧
    (∃ ps : List (String × String),
      (process_chat_run c9cb c9cancel emptySession).messages =
        emptySession.messages ++
          ps.flatMap (fun p => [⟨"assistant", p.1⟩, ⟨"info", p.2⟩]) ∧
      countP isCompleteEv
        (process_chat_run c9cb c9cancel emptySession).events = ps.length ∧
      countP isReflInfoEv
        (process_chat_run c9cb c9cancel emptySession).events = ps.length ∧
      ∀ p ∈ ps,
        Event.message_complete p.1 ∈
          (process_chat_run c9cb c9cancel emptySession).events ∧
        ∃ nn, Event.reflection_info p.2 nn ∈
          (process_chat_run c9cb c9cancel emptySession).events)) :=
  ⟨by decide, C9_amended c9cb c9cancel emptySession (by decide)⟩
